import Mathlib

/-!
Verification of the fast-check ObjectArbitrary behaviour described in the
repository's design document, against a shallow embedding of the code.

The repository ships `src/prebuild/prebuild.ts`, which contains (a) the
prebuild script emitting the generated tuple combinator, and (b) the unit
test spec for `ObjectArbitrary` (`anything`, `object`, `json`, `unicodeJson`).
The generator implementations themselves (`ObjectArbitrary`, `Shrinkable`,
the random generator stubs, `constant`, `oneof`) are not part of the
supplied sources, so they are modelled from the spec (sections 3, 4.2, 4.3
and 6 of the design document); each such definition carries a
`Modelled from the spec:` doc comment.  The test-side helpers
(`assertShrinkedValue`, `checkCorrect`, `evaluateDepth`, the shrink loops)
are translated directly from `src/prebuild/prebuild.ts`.
-/

namespace FastCheck

/-- JavaScript numbers as they appear in this test suite: ordinary integers
plus the five floating-point sentinel extremes used by the default
`anything()` arbitraries (`NaN`, `Number.MAX_VALUE`, `Number.MIN_VALUE`,
`Number.MAX_SAFE_INTEGER`, `Number.MIN_SAFE_INTEGER`).  The sentinels are
kept symbolic: the claims only ever compare them for identity. -/
inductive JsNum where
  | int (n : Int)
  | nan
  | maxValue
  | minValue
  | maxSafeInteger
  | minSafeInteger
deriving DecidableEq

/-- A JavaScript value of the shapes produced by `anything()` / `object()`:
booleans, numbers, strings, `null`, `undefined`, arrays and plain objects
(ordered key/value lists, as produced by generation). -/
inductive JsValue where
  | vBool (b : Bool)
  | vNum (n : JsNum)
  | vStr (s : String)
  | vNull
  | vUndef
  | vArr (xs : List JsValue)
  | vObj (kvs : List (String × JsValue))

/-- `typeof` on our value model. -/
def typeofJs : JsValue → String
  | .vBool _ => "boolean"
  | .vNum _ => "number"
  | .vStr _ => "string"
  | .vUndef => "undefined"
  | .vNull => "object"
  | .vArr _ => "object"
  | .vObj _ => "object"

/-- `Array.isArray` on our value model. -/
def isArrayJs : JsValue → Bool
  | .vArr _ => true
  | _ => false

/-- Modelled from the spec: a `Shrinkable` is a value paired with a
sequence of strictly smaller `Shrinkable`s (section 3 of the design
document).  The shrink sequences of every arbitrary in this development
are finite, so the sequence is a plain list; `shrink` below models one
invocation of the `shrink()` method, which recomputes the sequence from
the immutable pair and therefore has no hidden iterator state. -/
inductive Shrinkable (α : Type) where
  | mk (value : α) (children : List (Shrinkable α))

namespace Shrinkable

/-- The generated value carried by a `Shrinkable`. -/
def value : Shrinkable α → α
  | .mk v _ => v

/-- One invocation of `shrink()`: the (finite) sequence of children. -/
def shrink : Shrinkable α → List (Shrinkable α)
  | .mk _ cs => cs

theorem value_mk (v : α) (cs : List (Shrinkable α)) : value (.mk v cs) = v := rfl

theorem shrink_mk (v : α) (cs : List (Shrinkable α)) : shrink (.mk v cs) = cs := rfl

theorem sizeOf_lt_of_mem_shrink [SizeOf α] {s : Shrinkable α} {c : Shrinkable α}
    (h : c ∈ s.shrink) : sizeOf c < sizeOf s := by
  cases s with
  | mk v cs =>
    have h1 : sizeOf c < sizeOf cs := List.sizeOf_lt_of_mem h
    simp only [mk.sizeOf_spec]
    omega

/-- The value reached by exhaustively following the first-child path of the
shrink tree (the `while (shrinkable.shrink().has(v => true)[0])` loop of the
test spec, taking `next()` each time). -/
def firstChildLimit [SizeOf α] : Shrinkable α → α
  | .mk v [] => v
  | .mk _ (c :: _) => firstChildLimit c
termination_by s => sizeOf s
decreasing_by
  simp only [Shrinkable.mk.sizeOf_spec, List.cons.sizeOf_spec]
  omega

theorem firstChildLimit_nil [SizeOf α] (v : α) :
    firstChildLimit (.mk v ([] : List (Shrinkable α))) = v := by
  simp [firstChildLimit]

theorem firstChildLimit_cons [SizeOf α] (v : α) (c : Shrinkable α) (cs : List (Shrinkable α)) :
    firstChildLimit (.mk v (c :: cs)) = firstChildLimit c := by
  simp [firstChildLimit]

end Shrinkable

/-- `TreeAll P s`: the node predicate `P` holds at `s` and at every
descendant reachable through `shrink`, i.e. on the whole shrink tree. -/
inductive TreeAll {α : Type} (P : Shrinkable α → Prop) : Shrinkable α → Prop where
  | node {s : Shrinkable α} (hval : P s) (hch : ∀ c ∈ s.shrink, TreeAll P c) : TreeAll P s

namespace TreeAll

theorem here {P : Shrinkable α → Prop} {s : Shrinkable α} (h : TreeAll P s) : P s := by
  cases h with | node hval hch => exact hval

theorem step {P : Shrinkable α → Prop} {s c : Shrinkable α} (h : TreeAll P s)
    (hc : c ∈ s.shrink) : TreeAll P c := by
  cases h with | node hval hch => exact hch c hc

theorem mono {P Q : Shrinkable α → Prop} (hPQ : ∀ s, P s → Q s) :
    ∀ {s : Shrinkable α}, TreeAll P s → TreeAll Q s := by
  intro s h
  induction h with
  | node hval hch ih => exact ⟨hPQ _ hval, fun c hc => ih c hc⟩

end TreeAll

/-- `ValAll P s`: the value predicate `P` holds for the value of `s` and of
every descendant produced during shrinking. -/
def ValAll {α : Type} (P : α → Prop) : Shrinkable α → Prop :=
  TreeAll (fun s => P s.value)

theorem ValAll.self {P : α → Prop} {s : Shrinkable α} (h : ValAll P s) : P s.value :=
  TreeAll.here h

theorem ValAll.child {P : α → Prop} {s c : Shrinkable α} (h : ValAll P s)
    (hc : c ∈ s.shrink) : ValAll P c :=
  TreeAll.step h hc

/-- Along the first-child path, a tree-wide value predicate is preserved all
the way to the limit value. -/
theorem ValAll.firstChildLimit [SizeOf α] {P : α → Prop} :
    ∀ {s : Shrinkable α}, ValAll P s → P s.firstChildLimit := by
  intro s
  induction s using Shrinkable.firstChildLimit.induct with
  | case1 v =>
    intro h
    simpa [Shrinkable.firstChildLimit_nil] using h.self
  | case2 v c cs ih =>
    intro h
    rw [Shrinkable.firstChildLimit_cons]
    exact ih (h.child (by simp [Shrinkable.shrink]))

/-! ### Random generator and arbitraries -/

/-- Modelled from the spec: the seeded random-draw primitive (section 4.1)
and the deterministic `stubRng.mutable.fastincrease` stub used by the tests
(which is an ordinary implementation of the RandomGenerator contract).  The
state is a seed plus a cursor that advances on every draw; the drawn value
is a function of `(seed, cursor)` only. -/
structure RandomGenerator where
  seed : Int
  cursor : Nat
deriving DecidableEq

/-- One draw: returns an integer derived from `(seed, cursor)` and advances
the cursor. -/
def RandomGenerator.next (g : RandomGenerator) : Int × RandomGenerator :=
  (g.seed + g.cursor, { g with cursor := g.cursor + 1 })

/-- The generator built by `stubRng.mutable.fastincrease(seed)`. -/
def fastincrease (seed : Int) : RandomGenerator := ⟨seed, 0⟩

/-- Draw a natural number below `bound` (used to pick alternatives, lengths
and characters). -/
def drawNat (g : RandomGenerator) (bound : Nat) : Nat × RandomGenerator :=
  let (n, g') := g.next
  (n.natAbs % bound, g')

theorem drawNat_lt (g : RandomGenerator) {bound : Nat} (h : 0 < bound) :
    (drawNat g bound).1 < bound := Nat.mod_lt _ h

/-- Modelled from the spec: an `Arbitrary` is the capability
"generate a Shrinkable given a RandomGenerator" (section 3); with state
passed explicitly, `generate` returns the produced Shrinkable together with
the advanced generator. -/
structure Arbitrary (α : Type) where
  generate : RandomGenerator → Shrinkable α × RandomGenerator

/-- Modelled from the spec: `constant(v)` always produces `v` and has no
shrink children (section 6). -/
def constant (v : α) : Arbitrary α :=
  ⟨fun g => (.mk v [], g)⟩

/-- Modelled from the spec: `oneof(a0, ...rest)` draws one index uniformly
via a single RandomGenerator call and delegates generation to the selected
arbitrary (section 4.3). -/
def oneof (a0 : Arbitrary α) (rest : List (Arbitrary α)) : Arbitrary α :=
  ⟨fun g =>
    let (i, g') := drawNat g (rest.length + 1)
    ((a0 :: rest).getD i a0).generate g'⟩

/-! ### Primitive shrink trees (spec section 4.2) -/

/-- Modelled from the spec: booleans — `true` shrinks to exactly one child,
`false`; `false` has no children. -/
def boolTree : Bool → Shrinkable JsValue
  | true => .mk (.vBool true) [.mk (.vBool false) []]
  | false => .mk (.vBool false) []

/-- One bisection step toward zero, preserving the sign. -/
def halfTowardZero (n : Int) : Int :=
  (n.natAbs / 2 : Nat) * n.sign

theorem natAbs_halfTowardZero (n : Int) : (halfTowardZero n).natAbs = n.natAbs / 2 := by
  unfold halfTowardZero
  rw [Int.natAbs_mul, Int.natAbs_ofNat]
  by_cases h : n = 0
  · subst h; simp
  · have hs : n.sign.natAbs = 1 := by
      rcases Int.lt_trichotomy n 0 with h1 | h1 | h1
      · rw [Int.sign_eq_neg_one_of_neg h1]; rfl
      · exact absurd h1 h
      · rw [Int.sign_eq_one_of_pos h1]; rfl
    rw [hs, Nat.mul_one]

/-- Modelled from the spec: integers shrink toward zero via a bisection-like
strategy (candidates approaching zero); zero is terminal. -/
def intTree (n : Int) : Shrinkable JsValue :=
  if h : n = 0 then .mk (.vNum (.int 0)) []
  else .mk (.vNum (.int n)) [intTree (halfTowardZero n)]
termination_by n.natAbs
decreasing_by
  rw [natAbs_halfTowardZero]
  have : n.natAbs ≠ 0 := fun hc => h (Int.natAbs_eq_zero.mp hc)
  omega

/-- Modelled from the spec: text shrinks toward the empty string via length
reduction (halving the retained prefix); the empty string is terminal. -/
def strTreeChars (cs : List Char) : Shrinkable JsValue :=
  if h : cs = [] then .mk (.vStr (String.mk [])) []
  else .mk (.vStr (String.mk cs)) [strTreeChars (cs.take (cs.length / 2))]
termination_by cs.length
decreasing_by
  have hlen : 0 < cs.length := List.length_pos.mpr h
  simp only [List.length_take]
  omega

/-! ### Container shrink trees (spec sections 4.2 and 4.3) -/

theorem list_sizeOf_pos [SizeOf α] (l : List α) : 1 ≤ sizeOf l := by
  cases l with
  | nil => simp
  | cons a as => simp only [List.cons.sizeOf_spec]; omega

theorem sizeOf_take_lt [SizeOf α] :
    ∀ (l : List α) (k : Nat), k < l.length → sizeOf (l.take k) < sizeOf l
  | a :: as, 0, _ => by
    have := list_sizeOf_pos as
    simp only [List.take_zero, List.nil.sizeOf_spec, List.cons.sizeOf_spec]
    have := sizeOf a
    omega
  | a :: as, k + 1, h => by
    have ih := sizeOf_take_lt as k (by simpa using h)
    simp only [List.take_succ_cons, List.cons.sizeOf_spec]
    omega

/-- All one-element-shrunk variants of a list of shrinkables: for each
position, each child of the element at that position replaces it, the other
elements being held fixed (spec section 4.2, sequences). -/
def perElem : List (Shrinkable JsValue) → List (List (Shrinkable JsValue))
  | [] => []
  | e :: rest =>
    (e.shrink.map (fun c => c :: rest)) ++ ((perElem rest).map (fun l => e :: l))

theorem sizeOf_lt_of_mem_perElem :
    ∀ {es l}, l ∈ perElem es → sizeOf l < sizeOf es := by
  intro es
  induction es with
  | nil => intro l h; simp [perElem] at h
  | cons e rest ih =>
    intro l h
    simp only [perElem, List.mem_append, List.mem_map] at h
    rcases h with ⟨c, hc, rfl⟩ | ⟨l', hl', rfl⟩
    · have := Shrinkable.sizeOf_lt_of_mem_shrink hc
      simp only [List.cons.sizeOf_spec]
      omega
    · have := ih hl'
      simp only [List.cons.sizeOf_spec]
      omega

theorem mem_of_mem_perElem :
    ∀ {es l}, l ∈ perElem es → ∀ x ∈ l, x ∈ es ∨ ∃ e ∈ es, x ∈ e.shrink := by
  intro es
  induction es with
  | nil => intro l h; simp [perElem] at h
  | cons e rest ih =>
    intro l h x hx
    simp only [perElem, List.mem_append, List.mem_map] at h
    rcases h with ⟨c, hc, rfl⟩ | ⟨l', hl', rfl⟩
    · rcases List.mem_cons.mp hx with rfl | hx'
      · exact Or.inr ⟨e, List.mem_cons_self e rest, hc⟩
      · exact Or.inl (List.mem_cons_of_mem e hx')
    · rcases List.mem_cons.mp hx with rfl | hx'
      · exact Or.inl (List.mem_cons_self x rest)
      · rcases ih hl' x hx' with h1 | ⟨e', he', hc'⟩
        · exact Or.inl (List.mem_cons_of_mem e h1)
        · exact Or.inr ⟨e', List.mem_cons_of_mem e he', hc'⟩

/-- Modelled from the spec: the shrink tree of a sequence — it shrinks
toward the empty sequence by removing elements (here: keeping the first
half) and by recursively shrinking retained elements; the empty sequence is
terminal (spec section 4.2). -/
def arrayShrinkable : List (Shrinkable JsValue) → Shrinkable JsValue
  | [] => .mk (.vArr []) []
  | e :: rest =>
    .mk (.vArr ((e :: rest).map Shrinkable.value))
      (arrayShrinkable ((e :: rest).take ((e :: rest).length / 2)) ::
        (perElem (e :: rest)).attach.map (fun l => arrayShrinkable l.1))
termination_by es => sizeOf es
decreasing_by
  · exact sizeOf_take_lt _ _ (Nat.div_lt_self (by simp) one_lt_two)
  · exact sizeOf_lt_of_mem_perElem l.2

theorem arrayShrinkable_value (es : List (Shrinkable JsValue)) :
    (arrayShrinkable es).value = .vArr (es.map Shrinkable.value) := by
  cases es <;> simp [arrayShrinkable, Shrinkable.value]

theorem arrayShrinkable_shrink_nil : (arrayShrinkable []).shrink = [] := by
  simp [arrayShrinkable, Shrinkable.shrink]

theorem arrayShrinkable_shrink_cons (e : Shrinkable JsValue) (rest : List (Shrinkable JsValue)) :
    (arrayShrinkable (e :: rest)).shrink =
      arrayShrinkable ((e :: rest).take ((e :: rest).length / 2)) ::
        (perElem (e :: rest)).attach.map (fun l => arrayShrinkable l.1) := by
  simp [arrayShrinkable, Shrinkable.shrink]

theorem firstChildLimit_arrayShrinkable :
    ∀ es, (arrayShrinkable es).firstChildLimit = .vArr [] := by
  intro es
  induction es using arrayShrinkable.induct with
  | case1 =>
    simp [arrayShrinkable, Shrinkable.firstChildLimit_nil]
  | case2 e rest ih1 ih2 =>
    cases hmk : arrayShrinkable (e :: rest) with
    | mk v cs =>
      have hs := arrayShrinkable_shrink_cons e rest
      rw [hmk] at hs
      simp only [Shrinkable.shrink_mk] at hs
      rw [hs, Shrinkable.firstChildLimit_cons]
      exact ih1

/-- All one-value-shrunk variants of a keyed list: for each position, each
child of the value at that position replaces it, the key and the other
entries being held fixed (spec section 4.2, keyed structures). -/
def perValue : List (String × Shrinkable JsValue) → List (List (String × Shrinkable JsValue))
  | [] => []
  | (k, e) :: rest =>
    (e.shrink.map (fun c => (k, c) :: rest)) ++ ((perValue rest).map (fun l => (k, e) :: l))

theorem sizeOf_lt_of_mem_perValue :
    ∀ {kvs l}, l ∈ perValue kvs → sizeOf l < sizeOf kvs := by
  intro kvs
  induction kvs with
  | nil => intro l h; simp [perValue] at h
  | cons p rest ih =>
    obtain ⟨k, e⟩ := p
    intro l h
    simp only [perValue, List.mem_append, List.mem_map] at h
    rcases h with ⟨c, hc, rfl⟩ | ⟨l', hl', rfl⟩
    · have := Shrinkable.sizeOf_lt_of_mem_shrink hc
      simp only [List.cons.sizeOf_spec, Prod.mk.sizeOf_spec]
      omega
    · have := ih hl'
      simp only [List.cons.sizeOf_spec]
      omega

theorem mem_of_mem_perValue :
    ∀ {kvs l}, l ∈ perValue kvs → ∀ p ∈ l,
      p ∈ kvs ∨ ∃ q ∈ kvs, p.1 = q.1 ∧ p.2 ∈ Shrinkable.shrink q.2 := by
  intro kvs
  induction kvs with
  | nil => intro l h; simp [perValue] at h
  | cons q0 rest ih =>
    obtain ⟨k, e⟩ := q0
    intro l h p hp
    simp only [perValue, List.mem_append, List.mem_map] at h
    rcases h with ⟨c, hc, rfl⟩ | ⟨l', hl', rfl⟩
    · rcases List.mem_cons.mp hp with rfl | hp'
      · exact Or.inr ⟨(k, e), List.mem_cons_self _ rest, rfl, hc⟩
      · exact Or.inl (List.mem_cons_of_mem _ hp')
    · rcases List.mem_cons.mp hp with rfl | hp'
      · exact Or.inl (List.mem_cons_self _ rest)
      · rcases ih hl' p hp' with h1 | ⟨q', hq', hk', hc'⟩
        · exact Or.inl (List.mem_cons_of_mem _ h1)
        · exact Or.inr ⟨q', List.mem_cons_of_mem _ hq', hk', hc'⟩

/-- Modelled from the spec: the shrink tree of a keyed structure — it
shrinks toward the empty structure by removing keys (here: keeping the
first half) and by recursively shrinking retained values; the empty
structure is terminal (spec section 4.2). -/
def objectShrinkable : List (String × Shrinkable JsValue) → Shrinkable JsValue
  | [] => .mk (.vObj []) []
  | q :: rest =>
    .mk (.vObj ((q :: rest).map (fun p => (p.1, p.2.value))))
      (objectShrinkable ((q :: rest).take ((q :: rest).length / 2)) ::
        (perValue (q :: rest)).attach.map (fun l => objectShrinkable l.1))
termination_by kvs => sizeOf kvs
decreasing_by
  · exact sizeOf_take_lt _ _ (Nat.div_lt_self (by simp) one_lt_two)
  · exact sizeOf_lt_of_mem_perValue l.2

theorem objectShrinkable_value (kvs : List (String × Shrinkable JsValue)) :
    (objectShrinkable kvs).value = .vObj (kvs.map (fun p => (p.1, p.2.value))) := by
  cases kvs <;> simp [objectShrinkable, Shrinkable.value]

theorem objectShrinkable_shrink_nil : (objectShrinkable []).shrink = [] := by
  simp [objectShrinkable, Shrinkable.shrink]

theorem objectShrinkable_shrink_cons (q : String × Shrinkable JsValue)
    (rest : List (String × Shrinkable JsValue)) :
    (objectShrinkable (q :: rest)).shrink =
      objectShrinkable ((q :: rest).take ((q :: rest).length / 2)) ::
        (perValue (q :: rest)).attach.map (fun l => objectShrinkable l.1) := by
  simp [objectShrinkable, Shrinkable.shrink]

theorem firstChildLimit_objectShrinkable :
    ∀ kvs, (objectShrinkable kvs).firstChildLimit = .vObj [] := by
  intro kvs
  induction kvs using objectShrinkable.induct with
  | case1 =>
    simp [objectShrinkable, Shrinkable.firstChildLimit_nil]
  | case2 q rest ih1 ih2 =>
    cases hmk : objectShrinkable (q :: rest) with
    | mk v cs =>
      have hs := objectShrinkable_shrink_cons q rest
      rw [hmk] at hs
      simp only [Shrinkable.shrink_mk] at hs
      rw [hs, Shrinkable.firstChildLimit_cons]
      exact ih1

/-- A node predicate that holds on every array node built from trees on
which it holds everywhere extends to the whole shrink tree of
`arrayShrinkable`. -/
theorem treeAll_arrayShrinkable (P : Shrinkable JsValue → Prop)
    (hnode : ∀ es, (∀ e ∈ es, TreeAll P e) → P (arrayShrinkable es)) :
    ∀ es, (∀ e ∈ es, TreeAll P e) → TreeAll P (arrayShrinkable es) := by
  intro es
  induction es using arrayShrinkable.induct with
  | case1 =>
    intro h
    refine TreeAll.node (hnode [] h) ?_
    intro c hc
    rw [arrayShrinkable_shrink_nil] at hc
    exact absurd hc (List.not_mem_nil c)
  | case2 e rest ih1 ih2 =>
    intro hall
    refine TreeAll.node (hnode _ hall) ?_
    intro c hc
    rw [arrayShrinkable_shrink_cons] at hc
    rcases List.mem_cons.mp hc with rfl | hc'
    · exact ih1 (fun x hx => hall x (List.take_subset _ _ hx))
    · simp only [List.mem_map, List.mem_attach, true_and] at hc'
      obtain ⟨⟨l, hl⟩, rfl⟩ := hc'
      refine ih2 ⟨l, hl⟩ ?_
      intro x hx
      rcases mem_of_mem_perElem hl x hx with hmem | ⟨e', he', hch⟩
      · exact hall x hmem
      · exact (hall e' he').step hch

/-- The object analogue of `treeAll_arrayShrinkable`; the key predicate `K`
records that every key of every descendant comes from the original entry
list. -/
theorem treeAll_objectShrinkable (P : Shrinkable JsValue → Prop) (K : String → Prop)
    (hnode : ∀ kvs, (∀ p ∈ kvs, K p.1 ∧ TreeAll P p.2) → P (objectShrinkable kvs)) :
    ∀ kvs, (∀ p ∈ kvs, K p.1 ∧ TreeAll P p.2) → TreeAll P (objectShrinkable kvs) := by
  intro kvs
  induction kvs using objectShrinkable.induct with
  | case1 =>
    intro h
    refine TreeAll.node (hnode [] h) ?_
    intro c hc
    rw [objectShrinkable_shrink_nil] at hc
    exact absurd hc (List.not_mem_nil c)
  | case2 q rest ih1 ih2 =>
    intro hall
    refine TreeAll.node (hnode _ hall) ?_
    intro c hc
    rw [objectShrinkable_shrink_cons] at hc
    rcases List.mem_cons.mp hc with rfl | hc'
    · exact ih1 (fun p hp => hall p (List.take_subset _ _ hp))
    · simp only [List.mem_map, List.mem_attach, true_and] at hc'
      obtain ⟨⟨l, hl⟩, rfl⟩ := hc'
      refine ih2 ⟨l, hl⟩ ?_
      intro p hp
      rcases mem_of_mem_perValue hl p hp with hmem | ⟨q', hq', hk', hch⟩
      · exact hall p hmem
      · exact ⟨hk' ▸ (hall q' hq').1, (hall q' hq').2.step hch⟩

/-! ### Leaf arbitraries and generation constraints -/

/-- Modelled from the spec: default bound on generated sequence lengths
(section 4.3, "draws a length bounded by a configurable or default
maximum"). -/
def maxArrayLength : Nat := 10

/-- Modelled from the spec: default bound on the number of keys drawn for a
keyed container. -/
def maxObjectKeys : Nat := 10

/-- Modelled from the spec: default bound on generated text lengths. -/
def maxStringLength : Nat := 10

/-- Character span of the restricted text domain (printable ASCII,
codes 32..126) used by `json` and the default key/value text arbitraries. -/
def asciiSpan : Nat := 95

/-- Character span of the full text domain (codes 32..55295, the scalar
values below the surrogate range) used by `unicodeJson`. -/
def unicodeSpan : Nat := 55264

/-- Draw `k` characters with codes in `[32, 32 + span)`. -/
def genChars (span : Nat) : Nat → RandomGenerator → List Char × RandomGenerator
  | 0, g => ([], g)
  | k + 1, g =>
    let (c, g1) := drawNat g span
    let (cs, g2) := genChars span k g1
    (Char.ofNat (32 + c) :: cs, g2)

/-- Text shrink chain at type `String` (for key arbitraries): halve the
retained prefix, the empty string being terminal. -/
def strTreeStr (cs : List Char) : Shrinkable String :=
  if h : cs = [] then .mk (String.mk []) []
  else .mk (String.mk cs) [strTreeStr (cs.take (cs.length / 2))]
termination_by cs.length
decreasing_by
  have hlen : 0 < cs.length := List.length_pos.mpr h
  simp only [List.length_take]
  omega

/-- Modelled from the spec: the generic text-key arbitrary (section 6,
default for `opts.key`). -/
def keyStringArb (span : Nat) : Arbitrary String :=
  ⟨fun g =>
    let (len, g1) := drawNat g (maxStringLength + 1)
    let (cs, g2) := genChars span len g1
    (strTreeStr cs, g2)⟩

/-- Modelled from the spec: the text leaf arbitrary producing `JsValue`
strings. -/
def stringValueArb (span : Nat) : Arbitrary JsValue :=
  ⟨fun g =>
    let (len, g1) := drawNat g (maxStringLength + 1)
    let (cs, g2) := genChars span len g1
    (strTreeChars cs, g2)⟩

/-- Modelled from the spec: the boolean arbitrary (section 4.2). -/
def booleanArb : Arbitrary JsValue :=
  ⟨fun g =>
    let (b, g1) := drawNat g 2
    (boolTree (b == 1), g1)⟩

/-- Modelled from the spec: the integer arbitrary, shrinking toward zero
(section 4.2). -/
def integerArb : Arbitrary JsValue :=
  ⟨fun g =>
    let (n, g1) := g.next
    (intTree n, g1)⟩

/-- Modelled from the spec: `GenerationConstraints` (section 3) — a
key-producing arbitrary, the set of leaf-value arbitraries, and the
maximum nesting depth. -/
structure ObjectConstraints where
  key : Arbitrary String
  values : List (Arbitrary JsValue)
  maxDepth : Nat

/-- Modelled from the spec: the default leaf-value set, "a standard
mixed-primitive set" (section 6) including the floating-point sentinel
extremes of section 4.2 as constants. -/
def defaultValues : List (Arbitrary JsValue) :=
  [booleanArb, integerArb, stringValueArb asciiSpan,
   constant .vNull, constant .vUndef,
   constant (.vNum .nan), constant (.vNum .maxValue), constant (.vNum .minValue),
   constant (.vNum .maxSafeInteger), constant (.vNum .minSafeInteger)]

/-- Modelled from the spec: `opts.maxDepth` defaults to a fixed constant
when omitted (section 6). -/
def defaultMaxDepth : Nat := 2

/-- The constraints used by `anything()` / `object()` with no options. -/
def defaultConstraints : ObjectConstraints :=
  ⟨keyStringArb asciiSpan, defaultValues, defaultMaxDepth⟩

/-! ### Recursive structure generation (spec section 4.3) -/

/-- Draw one leaf from the constraint's value set. -/
def genLeaf (C : ObjectConstraints) (g : RandomGenerator) :
    Shrinkable JsValue × RandomGenerator :=
  let (i, g1) := drawNat g C.values.length
  (C.values.getD i (constant .vNull)).generate g1

mutual

/-- Modelled from the spec: the central recursive algorithm (section 4.3).
At each level the generator chooses, via the RandomGenerator, whether to
emit a leaf, a sequence container (recursing with one less level of depth
budget) or a keyed container (ditto); when the budget reaches zero only
leaves may be produced. -/
def genValue (C : ObjectConstraints) : Nat → RandomGenerator → Shrinkable JsValue × RandomGenerator
  | 0, g => genLeaf C g
  | d + 1, g =>
    let (choice, g1) := drawNat g 3
    match choice with
    | 0 => genLeaf C g1
    | 1 =>
      let (len, g2) := drawNat g1 (maxArrayLength + 1)
      let (es, g3) := genElems C d len g2
      (arrayShrinkable es, g3)
    | _ =>
      let (len, g2) := drawNat g1 (maxObjectKeys + 1)
      let (kvs, g3) := genEntries C d len g2
      (objectShrinkable kvs, g3)
termination_by d g => (d, 0)

/-- Generate `k` sequence elements at depth budget `d`. -/
def genElems (C : ObjectConstraints) : Nat → Nat → RandomGenerator →
    List (Shrinkable JsValue) × RandomGenerator
  | _, 0, g => ([], g)
  | d, k + 1, g =>
    let (e, g1) := genValue C d g
    let (es, g2) := genElems C d k g1
    (e :: es, g2)
termination_by d k g => (d, k)

/-- Generate `k` keyed entries at depth budget `d`; keys are drawn from the
constraint's key arbitrary. -/
def genEntries (C : ObjectConstraints) : Nat → Nat → RandomGenerator →
    List (String × Shrinkable JsValue) × RandomGenerator
  | _, 0, g => ([], g)
  | d, k + 1, g =>
    let (ks, g1) := C.key.generate g
    let (v, g2) := genValue C d g1
    let (kvs, g3) := genEntries C d k g2
    ((ks.value, v) :: kvs, g3)
termination_by d k g => (d, k)

end

/-- Modelled from the spec: `anything(opts)` — the top-level result may be
any shape (section 4.3). -/
def anything (C : ObjectConstraints) : Arbitrary JsValue :=
  ⟨fun g => genValue C C.maxDepth g⟩

/-- Modelled from the spec: `object(opts)` — the top level is forced to be
a keyed container, whose values recurse with the full depth budget, so its
externally observed nesting is one level deeper than the depth parameter
(section 4.3). -/
def object (C : ObjectConstraints) : Arbitrary JsValue :=
  ⟨fun g =>
    let (len, g1) := drawNat g (maxObjectKeys + 1)
    let (kvs, g2) := genEntries C C.maxDepth len g1
    (objectShrinkable kvs, g2)⟩

/-! ### Test-side helpers, translated from `src/prebuild/prebuild.ts` -/

/-- The sentinel extremes singled out by `assertShrinkedValue`
(`Number.MAX_VALUE`, `Number.MIN_VALUE`, `Number.MAX_SAFE_INTEGER`,
`Number.MIN_SAFE_INTEGER`). -/
def sentinelNums : List JsNum := [.maxValue, .minValue, .maxSafeInteger, .minSafeInteger]

/-- Translation of `assertShrinkedValue` (prebuild.ts lines 22-46): the
fully-shrunk value must be the canonical minimal value of the original
value's type — `false` for booleans; `0` for numbers except that `NaN`
must stay `NaN` and the four finite extremes may stay unchanged; `''` for
strings; `undefined`/`null` for absent values; `[]` for arrays; `{}` for
other objects.  The leading conjunct is the `typeof` equality asserted
first by the source. -/
def assertShrinkedValueP (original shrinked : JsValue) : Prop :=
  typeofJs shrinked = typeofJs original ∧
  match original with
  | .vBool _ => shrinked = .vBool false
  | .vNum .nan => shrinked = .vNum .nan
  | .vNum m =>
    if m ∈ sentinelNums then shrinked = .vNum (.int 0) ∨ shrinked = .vNum m
    else shrinked = .vNum (.int 0)
  | .vUndef => shrinked = .vUndef
  | .vStr _ => shrinked = .vStr (String.mk [])
  | .vNull => shrinked = .vNull
  | .vArr _ => shrinked = .vArr []
  | .vObj _ => shrinked = .vObj []

/-- The closure property of claim C1 / spec section 3: every key occurring
anywhere in the value is drawn from `ks` and every leaf is drawn from `vs`,
recursively at all nesting levels. -/
def KeysValuesClosed (ks : List String) (vs : List JsValue) : JsValue → Prop
  | .vArr xs => ∀ x ∈ xs, KeysValuesClosed ks vs x
  | .vObj kvs => ∀ p ∈ kvs, p.1 ∈ ks ∧ KeysValuesClosed ks vs p.2
  | v => v ∈ vs
termination_by v => sizeOf v
decreasing_by
  · have := List.sizeOf_lt_of_mem (by assumption : x ∈ xs)
    simp only [JsValue.vArr.sizeOf_spec]
    omega
  · have h1 := List.sizeOf_lt_of_mem (by assumption : p ∈ kvs)
    have h2 : sizeOf p.2 < sizeOf p := by
      obtain ⟨a, b⟩ := p
      simp only [Prod.mk.sizeOf_spec]
      omega
    simp only [JsValue.vObj.sizeOf_spec]
    omega

mutual

/-- Translation of `evaluateDepth` (prebuild.ts lines 58-65): arrays and
keyed objects count one plus the maximum depth of their members (zero for
an empty container), strings count zero, and other primitives count one
(their `Object.getOwnPropertyNames` is empty).  `none` models the
`TypeError` that `Object.getOwnPropertyNames` raises on `null` and
`undefined`. -/
def evaluateDepth : JsValue → Option Nat
  | .vArr xs => (evalDepthElems xs).map (fun m => 1 + m)
  | .vStr _ => some 0
  | .vNull => none
  | .vUndef => none
  | .vBool _ => some 1
  | .vNum _ => some 1
  | .vObj kvs => (evalDepthValues kvs).map (fun m => 1 + m)
termination_by v => sizeOf v

/-- The `reduce(Math.max, 0)` fold of `evaluateDepth` over array elements. -/
def evalDepthElems : List JsValue → Option Nat
  | [] => some 0
  | x :: xs => do
    let a ← evaluateDepth x
    let b ← evalDepthElems xs
    pure (max a b)
termination_by xs => sizeOf xs

/-- The `reduce(Math.max, 0)` fold of `evaluateDepth` over object values. -/
def evalDepthValues : List (String × JsValue) → Option Nat
  | [] => some 0
  | (_, v) :: ps => do
    let a ← evaluateDepth v
    let b ← evalDepthValues ps
    pure (max a b)
termination_by ps => sizeOf ps

end

/-- One invocation of the `shrink()` method; `callIdx` records which call of
the consuming loop performs it, so that independence from call history is a
statable property. -/
def invokeShrink (s : Shrinkable α) (callIdx : Nat) : List (Shrinkable α) :=
  s.shrink

/-- Translation of the shrink loop of the test spec (prebuild.ts lines
99-101): while a first `shrink()` invocation reports a child
(`.has(v => true)[0]`), take the first child reported by a second, separate
`shrink()` invocation (`.next().value`). -/
def shrinkLoop [SizeOf α] (s : Shrinkable α) : Shrinkable α :=
  if (invokeShrink s 0).any (fun _ => true) then
    match h2 : (invokeShrink s 1).head? with
    | some c => shrinkLoop c
    | none => s
  else s
termination_by sizeOf s
decreasing_by
  exact Shrinkable.sizeOf_lt_of_mem_shrink (List.mem_of_mem_head? h2)

/-- The two-invocation loop of the source reaches exactly the first-child
limit. -/
theorem shrinkLoop_value [SizeOf α] :
    ∀ s : Shrinkable α, (shrinkLoop s).value = s.firstChildLimit := by
  intro s
  induction s using Shrinkable.firstChildLimit.induct with
  | case1 v =>
    rw [shrinkLoop, Shrinkable.firstChildLimit_nil]
    simp [invokeShrink, Shrinkable.shrink, Shrinkable.value]
  | case2 v c cs ih =>
    rw [shrinkLoop, Shrinkable.firstChildLimit_cons]
    simpa [invokeShrink, Shrinkable.shrink] using ih

/-! ### Shrink limits of every generated tree -/

/-- The generated tree satisfies the source's `assertShrinkedValue` check:
its first-child shrink limit is the canonical minimal value of its own
value's type. -/
def GoodLimit (s : Shrinkable JsValue) : Prop :=
  assertShrinkedValueP s.value s.firstChildLimit

theorem firstChildLimit_boolTree (b : Bool) :
    (boolTree b).firstChildLimit = .vBool false := by
  cases b <;>
    simp [boolTree, Shrinkable.firstChildLimit_nil, Shrinkable.firstChildLimit_cons]

theorem goodLimit_boolTree (b : Bool) : GoodLimit (boolTree b) := by
  cases b <;>
    simp [GoodLimit, assertShrinkedValueP, boolTree, Shrinkable.value, typeofJs,
      Shrinkable.firstChildLimit_nil, Shrinkable.firstChildLimit_cons]

theorem firstChildLimit_intTree : ∀ n, (intTree n).firstChildLimit = .vNum (.int 0) := by
  intro n
  induction n using intTree.induct with
  | case1 =>
    rw [intTree]
    simp [Shrinkable.firstChildLimit_nil]
  | case2 n h ih =>
    rw [intTree]
    simp only [h, dite_false]
    rw [Shrinkable.firstChildLimit_cons]
    exact ih

theorem intTree_value (n : Int) : (intTree n).value = .vNum (.int n) := by
  rw [intTree]
  by_cases h : n = 0 <;> simp [h, Shrinkable.value]

theorem goodLimit_intTree (n : Int) : GoodLimit (intTree n) := by
  have hl := firstChildLimit_intTree n
  have hv := intTree_value n
  simp [GoodLimit, assertShrinkedValueP, hl, hv, typeofJs, sentinelNums]

theorem firstChildLimit_strTreeChars :
    ∀ cs, (strTreeChars cs).firstChildLimit = .vStr (String.mk []) := by
  intro cs
  induction cs using strTreeChars.induct with
  | case1 =>
    rw [strTreeChars]
    simp [Shrinkable.firstChildLimit_nil]
  | case2 cs h ih =>
    rw [strTreeChars]
    simp only [h, dite_false]
    rw [Shrinkable.firstChildLimit_cons]
    exact ih

theorem strTreeChars_value (cs : List Char) :
    (strTreeChars cs).value = .vStr (String.mk cs) := by
  rw [strTreeChars]
  by_cases h : cs = [] <;> simp [h, Shrinkable.value]

theorem goodLimit_strTreeChars (cs : List Char) : GoodLimit (strTreeChars cs) := by
  have hl := firstChildLimit_strTreeChars cs
  have hv := strTreeChars_value cs
  simp [GoodLimit, assertShrinkedValueP, hl, hv, typeofJs]

theorem constant_generate (v : α) (g : RandomGenerator) :
    (constant v).generate g = (.mk v [], g) := rfl

theorem goodLimit_constant_self {v : JsValue} (h : assertShrinkedValueP v v) :
    GoodLimit (.mk v []) := by
  simpa [GoodLimit, Shrinkable.value, Shrinkable.firstChildLimit_nil] using h

theorem goodLimit_arrayShrinkable (es : List (Shrinkable JsValue)) :
    GoodLimit (arrayShrinkable es) := by
  have hl := firstChildLimit_arrayShrinkable es
  have hv := arrayShrinkable_value es
  simp [GoodLimit, assertShrinkedValueP, hl, hv, typeofJs]

theorem goodLimit_objectShrinkable (kvs : List (String × Shrinkable JsValue)) :
    GoodLimit (objectShrinkable kvs) := by
  have hl := firstChildLimit_objectShrinkable kvs
  have hv := objectShrinkable_value kvs
  simp [GoodLimit, assertShrinkedValueP, hl, hv, typeofJs]

theorem goodLimit_defaultValues :
    ∀ a ∈ defaultValues, ∀ g, GoodLimit ((a.generate g)).1 := by
  intro a ha g
  simp only [defaultValues, List.mem_cons, List.not_mem_nil, or_false] at ha
  rcases ha with rfl | rfl | rfl | rfl | rfl | rfl | rfl | rfl | rfl | rfl
  · exact goodLimit_boolTree _
  · exact goodLimit_intTree _
  · exact goodLimit_strTreeChars _
  · exact goodLimit_constant_self (by simp [assertShrinkedValueP])
  · exact goodLimit_constant_self (by simp [assertShrinkedValueP])
  · exact goodLimit_constant_self (by simp [assertShrinkedValueP])
  · exact goodLimit_constant_self (by simp [assertShrinkedValueP, sentinelNums])
  · exact goodLimit_constant_self (by simp [assertShrinkedValueP, sentinelNums])
  · exact goodLimit_constant_self (by simp [assertShrinkedValueP, sentinelNums])
  · exact goodLimit_constant_self (by simp [assertShrinkedValueP, sentinelNums])

theorem genLeaf_goodLimit (C : ObjectConstraints)
    (hvals : ∀ a ∈ C.values, ∀ g, GoodLimit ((a.generate g)).1) (g : RandomGenerator) :
    GoodLimit (genLeaf C g).1 := by
  unfold genLeaf
  rcases hdn : drawNat g C.values.length with ⟨i, g1⟩
  dsimp only
  by_cases h : i < C.values.length
  · have hmem : C.values.getD i (constant .vNull) ∈ C.values := by
      rw [List.getD_eq_getElem?_getD, List.getElem?_eq_getElem h]
      simp only [Option.getD_some]
      exact List.getElem_mem h
    exact hvals _ hmem _
  · rw [List.getD_eq_default _ _ (Nat.le_of_not_lt h)]
    exact goodLimit_constant_self (by simp [assertShrinkedValueP])

theorem genValue_goodLimit (C : ObjectConstraints)
    (hvals : ∀ a ∈ C.values, ∀ g, GoodLimit ((a.generate g)).1) :
    ∀ (d : Nat) (g : RandomGenerator), GoodLimit (genValue C d g).1 := by
  intro d g
  cases d with
  | zero =>
    rw [genValue]
    exact genLeaf_goodLimit C hvals g
  | succ d =>
    rw [genValue]
    rcases hdn : drawNat g 3 with ⟨choice, g1⟩
    rcases choice with _ | _ | choice
    · exact genLeaf_goodLimit C hvals g1
    · exact goodLimit_arrayShrinkable _
    · exact goodLimit_objectShrinkable _

/-! ### Claims C2 and C9 -/

/-- C2: for every Shrinkable generated by `anything()` (default
constraints), the loop that repeatedly replaces the current Shrinkable by
the first child of its shrink sequence is total (it terminates after
finitely many steps — `shrinkLoop` is a total function), and the value it
reaches is the canonical minimal value of the original value's type in the
sense of the source's `assertShrinkedValue`: `false` for booleans, `0` for
numbers (with the floating-point extreme exception), the empty string for
text, `undefined`/`null` for absent values, `[]` for arrays and `{}` for
keyed objects. -/
theorem anything_shrink_path_reaches_minimal (g : RandomGenerator) :
    assertShrinkedValueP (((anything defaultConstraints).generate g).1).value
      ((shrinkLoop (((anything defaultConstraints).generate g).1)).value) := by
  rw [shrinkLoop_value]
  exact genValue_goodLimit defaultConstraints goodLimit_defaultValues
    defaultConstraints.maxDepth g

/-- C9: every value generated by `object()` with default options is at top
level a keyed container — of object type and not an array — for every
generator state, and the value reached by the first-child shrink path is
the empty keyed structure. -/
theorem object_generates_object_and_shrinks_to_empty (g : RandomGenerator) :
    (∃ kvs, (((object defaultConstraints).generate g).1).value = .vObj kvs) ∧
    typeofJs (((object defaultConstraints).generate g).1).value = "object" ∧
    isArrayJs (((object defaultConstraints).generate g).1).value = false ∧
    (shrinkLoop (((object defaultConstraints).generate g).1)).value = .vObj [] := by
  show (∃ kvs, ((let (len, g1) := drawNat g (maxObjectKeys + 1)
                 let (kvs, g2) := genEntries defaultConstraints defaultConstraints.maxDepth len g1
                 (objectShrinkable kvs, g2)).1).value = .vObj kvs) ∧ _
  rcases hdn : drawNat g (maxObjectKeys + 1) with ⟨len, g1⟩
  rcases hge : genEntries defaultConstraints defaultConstraints.maxDepth len g1 with ⟨kvs, g2⟩
  refine ⟨⟨kvs.map (fun p => (p.1, p.2.value)), ?_⟩, ?_, ?_, ?_⟩ <;>
    simp [object, hdn, hge, objectShrinkable_value, typeofJs, isArrayJs,
      shrinkLoop_value, firstChildLimit_objectShrinkable]

/-! ### Closure of generated trees (claim C1) -/

theorem keysValuesClosed_arr {ks vs} {xs : List JsValue} :
    KeysValuesClosed ks vs (.vArr xs) ↔ ∀ x ∈ xs, KeysValuesClosed ks vs x := by
  rw [KeysValuesClosed]

theorem keysValuesClosed_obj {ks vs} {kvs : List (String × JsValue)} :
    KeysValuesClosed ks vs (.vObj kvs) ↔
      ∀ p ∈ kvs, p.1 ∈ ks ∧ KeysValuesClosed ks vs p.2 := by
  rw [KeysValuesClosed]

theorem keysValuesClosed_str {ks vs} {s : String} :
    KeysValuesClosed ks vs (.vStr s) ↔ .vStr s ∈ vs := by
  rw [KeysValuesClosed]
  all_goals simp

theorem closed_arrayShrinkable {ks vs} {es : List (Shrinkable JsValue)}
    (h : ∀ e ∈ es, ValAll (KeysValuesClosed ks vs) e) :
    ValAll (KeysValuesClosed ks vs) (arrayShrinkable es) := by
  refine treeAll_arrayShrinkable _ ?_ es h
  intro es' h'
  rw [arrayShrinkable_value, keysValuesClosed_arr]
  intro x hx
  obtain ⟨e, he, rfl⟩ := List.mem_map.mp hx
  exact (h' e he).here

theorem closed_objectShrinkable {ks vs} {kvs : List (String × Shrinkable JsValue)}
    (h : ∀ p ∈ kvs, p.1 ∈ ks ∧ ValAll (KeysValuesClosed ks vs) p.2) :
    ValAll (KeysValuesClosed ks vs) (objectShrinkable kvs) := by
  refine treeAll_objectShrinkable _ (· ∈ ks) ?_ kvs h
  intro kvs' h'
  rw [objectShrinkable_value, keysValuesClosed_obj]
  intro p hp
  obtain ⟨q, hq, rfl⟩ := List.mem_map.mp hp
  exact ⟨(h' q hq).1, (h' q hq).2.here⟩

theorem genLeaf_closed {C : ObjectConstraints} {ks vs}
    (hvals : ∀ a ∈ C.values, ∀ g, ValAll (KeysValuesClosed ks vs) (a.generate g).1)
    (hne : C.values ≠ []) (g : RandomGenerator) :
    ValAll (KeysValuesClosed ks vs) (genLeaf C g).1 := by
  unfold genLeaf
  rcases hdn : drawNat g C.values.length with ⟨i, g1⟩
  dsimp only
  have hlt : i < C.values.length := by
    have := drawNat_lt g (List.length_pos.mpr hne)
    rw [hdn] at this
    exact this
  have hmem : C.values.getD i (constant .vNull) ∈ C.values := by
    rw [List.getD_eq_getElem?_getD, List.getElem?_eq_getElem hlt]
    simp only [Option.getD_some]
    exact List.getElem_mem hlt
  exact hvals _ hmem _

theorem genValue_closed {C : ObjectConstraints} {ks vs}
    (hkey : ∀ g, (((C.key.generate g)).1).value ∈ ks)
    (hvals : ∀ a ∈ C.values, ∀ g, ValAll (KeysValuesClosed ks vs) (a.generate g).1)
    (hne : C.values ≠ []) :
    ∀ (d : Nat) (g : RandomGenerator), ValAll (KeysValuesClosed ks vs) (genValue C d g).1 := by
  intro d
  induction d with
  | zero =>
    intro g
    rw [genValue]
    exact genLeaf_closed hvals hne g
  | succ d ih =>
    have helems : ∀ (k : Nat) (g : RandomGenerator),
        ∀ e ∈ (genElems C d k g).1, ValAll (KeysValuesClosed ks vs) e := by
      intro k
      induction k with
      | zero =>
        intro g e he
        rw [genElems] at he
        exact absurd he (List.not_mem_nil e)
      | succ k ihk =>
        intro g e he
        rw [genElems] at he
        rcases hgv : genValue C d g with ⟨e1, g1⟩
        rw [hgv] at he
        dsimp only at he
        rcases hge : genElems C d k g1 with ⟨es, g2⟩
        rw [hge] at he
        dsimp only at he
        rcases List.mem_cons.mp he with rfl | he'
        · have := ih g
          rw [hgv] at this
          exact this
        · have := ihk g1 e
          rw [hge] at this
          exact this he'
    have hentries : ∀ (k : Nat) (g : RandomGenerator),
        ∀ p ∈ (genEntries C d k g).1,
          p.1 ∈ ks ∧ ValAll (KeysValuesClosed ks vs) p.2 := by
      intro k
      induction k with
      | zero =>
        intro g p hp
        rw [genEntries] at hp
        exact absurd hp (List.not_mem_nil p)
      | succ k ihk =>
        intro g p hp
        rw [genEntries] at hp
        rcases hkg : C.key.generate g with ⟨kshr, g1⟩
        rw [hkg] at hp
        dsimp only at hp
        rcases hgv : genValue C d g1 with ⟨v1, g2⟩
        rw [hgv] at hp
        dsimp only at hp
        rcases hge : genEntries C d k g2 with ⟨kvs1, g3⟩
        rw [hge] at hp
        dsimp only at hp
        rcases List.mem_cons.mp hp with rfl | hp'
        · constructor
          · have := hkey g
            rw [hkg] at this
            exact this
          · have := ih g1
            rw [hgv] at this
            exact this
        · have := ihk g2 p
          rw [hge] at this
          exact this hp'
    intro g
    rw [genValue]
    rcases hdn : drawNat g 3 with ⟨choice, g1⟩
    rcases choice with _ | _ | choice
    · exact genLeaf_closed hvals hne g1
    · dsimp only
      refine closed_arrayShrinkable ?_
      intro e he
      exact helems _ _ e he
    · dsimp only
      refine closed_objectShrinkable ?_
      intro p hp
      exact hentries _ _ p hp

theorem oneof_constant_value_mem (key0 : String) (keys : List String) (g : RandomGenerator) :
    (((oneof (constant key0) (keys.map constant)).generate g).1).value ∈ key0 :: keys := by
  unfold oneof
  dsimp only
  rcases hdn : drawNat g ((keys.map constant).length + 1) with ⟨i, g'⟩
  dsimp only
  have hsel : ∃ k, k ∈ key0 :: keys ∧
      (constant key0 :: keys.map constant).getD i (constant key0) = constant k := by
    by_cases h : i < (constant key0 :: keys.map constant).length
    · have hmem : (constant key0 :: keys.map constant).getD i (constant key0) ∈
          constant key0 :: keys.map constant := by
        rw [List.getD_eq_getElem?_getD, List.getElem?_eq_getElem h]
        simp only [Option.getD_some]
        exact List.getElem_mem h
      rcases List.mem_cons.mp hmem with he | hm
      · exact ⟨key0, List.mem_cons_self _ _, he⟩
      · obtain ⟨k, hk, he⟩ := List.mem_map.mp hm
        exact ⟨k, List.mem_cons_of_mem _ hk, he.symm⟩
    · rw [List.getD_eq_default _ _ (Nat.le_of_not_lt h)]
      exact ⟨key0, List.mem_cons_self _ _, rfl⟩
  obtain ⟨k, hk, hkeq⟩ := hsel
  rw [hkeq, constant_generate]
  simpa [Shrinkable.value] using hk

theorem constant_vstr_closed (ks : List String) (vals : List String) :
    ∀ a ∈ vals.map (fun s => constant (JsValue.vStr s)), ∀ g : RandomGenerator,
      ValAll (KeysValuesClosed ks (vals.map JsValue.vStr)) (a.generate g).1 := by
  intro a ha g
  obtain ⟨s, hs, rfl⟩ := List.mem_map.mp ha
  rw [constant_generate]
  refine TreeAll.node ?_ ?_
  · show KeysValuesClosed ks (vals.map JsValue.vStr) (Shrinkable.value _)
    rw [Shrinkable.value_mk, keysValuesClosed_str]
    exact List.mem_map.mpr ⟨s, hs, rfl⟩
  · intro c hc
    rw [Shrinkable.shrink_mk] at hc
    exact absurd hc (List.not_mem_nil c)

theorem genEntries_closed {C : ObjectConstraints} {ks vs}
    (hkey : ∀ g, (((C.key.generate g)).1).value ∈ ks)
    (hvals : ∀ a ∈ C.values, ∀ g, ValAll (KeysValuesClosed ks vs) (a.generate g).1)
    (hne : C.values ≠ []) (d : Nat) :
    ∀ (k : Nat) (g : RandomGenerator),
      ∀ p ∈ (genEntries C d k g).1, p.1 ∈ ks ∧ ValAll (KeysValuesClosed ks vs) p.2 := by
  intro k
  induction k with
  | zero =>
    intro g p hp
    rw [genEntries] at hp
    exact absurd hp (List.not_mem_nil p)
  | succ k ihk =>
    intro g p hp
    rw [genEntries] at hp
    rcases hkg : C.key.generate g with ⟨kshr, g1⟩
    rw [hkg] at hp
    dsimp only at hp
    rcases hgv : genValue C d g1 with ⟨v1, g2⟩
    rw [hgv] at hp
    dsimp only at hp
    rcases hge : genEntries C d k g2 with ⟨kvs1, g3⟩
    rw [hge] at hp
    dsimp only at hp
    rcases List.mem_cons.mp hp with rfl | hp'
    · constructor
      · have := hkey g
        rw [hkg] at this
        exact this
      · have := genValue_closed hkey hvals hne d g1
        rw [hgv] at this
        exact this
    · have := ihk g2 p
      rw [hge] at this
      exact this hp'

theorem object_closed {C : ObjectConstraints} {ks vs}
    (hkey : ∀ g, (((C.key.generate g)).1).value ∈ ks)
    (hvals : ∀ a ∈ C.values, ∀ g, ValAll (KeysValuesClosed ks vs) (a.generate g).1)
    (hne : C.values ≠ []) (g : RandomGenerator) :
    ValAll (KeysValuesClosed ks vs) (((object C).generate g).1) := by
  show ValAll (KeysValuesClosed ks vs)
    ((let (len, g1) := drawNat g (maxObjectKeys + 1)
      let (kvs, g2) := genEntries C C.maxDepth len g1
      (objectShrinkable kvs, g2)).1)
  rcases hdn : drawNat g (maxObjectKeys + 1) with ⟨len, g1⟩
  dsimp only
  refine closed_objectShrinkable ?_
  intro p hp
  exact genEntries_closed hkey hvals hne C.maxDepth len g1 p hp

/-- C1: for every value generated by `anything` or `object` under
constraints whose key arbitrary alternates over the constants
`key0 :: keys` and whose leaf-value arbitraries are the constants of the
strings `value0 :: values` (the setting of the source tests
"Should only use provided keys and values"), every key occurring anywhere
in the value is drawn from `key0 :: keys` and every leaf is drawn from
`value0 :: values`, recursively at all nesting levels, and the same closure
holds for every descendant value produced during shrinking. -/
theorem anything_object_only_use_provided_keys_and_values
    (seed : Int) (key0 value0 : String) (keys values : List String) :
    ValAll (KeysValuesClosed (key0 :: keys) ((value0 :: values).map JsValue.vStr))
      (((anything ⟨oneof (constant key0) (keys.map constant),
          (value0 :: values).map (fun s => constant (JsValue.vStr s)),
          defaultMaxDepth⟩).generate (fastincrease seed)).1) ∧
    ValAll (KeysValuesClosed (key0 :: keys) ((value0 :: values).map JsValue.vStr))
      (((object ⟨oneof (constant key0) (keys.map constant),
          (value0 :: values).map (fun s => constant (JsValue.vStr s)),
          defaultMaxDepth⟩).generate (fastincrease seed)).1) := by
  constructor
  · exact genValue_closed (fun g => oneof_constant_value_mem key0 keys g)
      (constant_vstr_closed (key0 :: keys) (value0 :: values)) (by simp)
      defaultMaxDepth (fastincrease seed)
  · exact object_closed (fun g => oneof_constant_value_mem key0 keys g)
      (constant_vstr_closed (key0 :: keys) (value0 :: values)) (by simp)
      (fastincrease seed)

/-! ### Depth bounds (claim C3) -/

theorem genLeaf_vstr {C : ObjectConstraints}
    (hstr : ∀ a ∈ C.values, ∀ g, ∃ t, ((a.generate g).1).value = .vStr t)
    (hne : C.values ≠ []) (g : RandomGenerator) :
    ∃ t, ((genLeaf C g).1).value = .vStr t := by
  unfold genLeaf
  rcases hdn : drawNat g C.values.length with ⟨i, g1⟩
  dsimp only
  have hlt : i < C.values.length := by
    have := drawNat_lt g (List.length_pos.mpr hne)
    rw [hdn] at this
    exact this
  have hmem : C.values.getD i (constant .vNull) ∈ C.values := by
    rw [List.getD_eq_getElem?_getD, List.getElem?_eq_getElem hlt]
    simp only [Option.getD_some]
    exact List.getElem_mem hlt
  exact hstr _ hmem _

theorem genElems_depth {C : ObjectConstraints} (d : Nat)
    (hv : ∀ g, ∃ n, evaluateDepth ((genValue C d g).1).value = some n ∧ n ≤ d) :
    ∀ (k : Nat) (g : RandomGenerator),
      ∃ m, evalDepthElems (((genElems C d k g).1).map Shrinkable.value) = some m ∧ m ≤ d := by
  intro k
  induction k with
  | zero =>
    intro g
    rw [genElems]
    refine ⟨0, ?_, Nat.zero_le d⟩
    simp [evalDepthElems]
  | succ k ihk =>
    intro g
    rw [genElems]
    rcases hgv : genValue C d g with ⟨e1, g1⟩
    dsimp only
    rcases hge : genElems C d k g1 with ⟨es, g2⟩
    dsimp only
    obtain ⟨a, ha, hale⟩ := hv g
    rw [hgv] at ha
    dsimp only at ha
    obtain ⟨b, hb, hble⟩ := ihk g1
    rw [hge] at hb
    dsimp only at hb
    refine ⟨max a b, ?_, Nat.max_le.mpr ⟨hale, hble⟩⟩
    rw [List.map_cons, evalDepthElems, ha, hb]
    rfl

theorem genEntries_depth {C : ObjectConstraints} (d : Nat)
    (hv : ∀ g, ∃ n, evaluateDepth ((genValue C d g).1).value = some n ∧ n ≤ d) :
    ∀ (k : Nat) (g : RandomGenerator),
      ∃ m, evalDepthValues (((genEntries C d k g).1).map (fun p => (p.1, p.2.value))) = some m ∧
        m ≤ d := by
  intro k
  induction k with
  | zero =>
    intro g
    rw [genEntries]
    refine ⟨0, ?_, Nat.zero_le d⟩
    simp [evalDepthValues]
  | succ k ihk =>
    intro g
    rw [genEntries]
    rcases hkg : C.key.generate g with ⟨kshr, g1⟩
    dsimp only
    rcases hgv : genValue C d g1 with ⟨v1, g2⟩
    dsimp only
    rcases hge : genEntries C d k g2 with ⟨kvs1, g3⟩
    dsimp only
    obtain ⟨a, ha, hale⟩ := hv g1
    rw [hgv] at ha
    dsimp only at ha
    obtain ⟨b, hb, hble⟩ := ihk g2
    rw [hge] at hb
    dsimp only at hb
    refine ⟨max a b, ?_, Nat.max_le.mpr ⟨hale, hble⟩⟩
    rw [List.map_cons, evalDepthValues, ha, hb]
    rfl

theorem genValue_depth {C : ObjectConstraints}
    (hstr : ∀ a ∈ C.values, ∀ g, ∃ t, ((a.generate g).1).value = .vStr t)
    (hne : C.values ≠ []) :
    ∀ (d : Nat) (g : RandomGenerator),
      ∃ n, evaluateDepth ((genValue C d g).1).value = some n ∧ n ≤ d := by
  intro d
  induction d with
  | zero =>
    intro g
    rw [genValue]
    obtain ⟨t, ht⟩ := genLeaf_vstr hstr hne g
    rw [ht]
    refine ⟨0, ?_, Nat.le_refl 0⟩
    simp [evaluateDepth]
  | succ d ih =>
    intro g
    rw [genValue]
    rcases hdn : drawNat g 3 with ⟨choice, g1⟩
    rcases choice with _ | _ | choice
    · obtain ⟨t, ht⟩ := genLeaf_vstr hstr hne g1
      refine ⟨0, ?_, Nat.zero_le _⟩
      show evaluateDepth ((genLeaf C g1).1).value = some 0
      rw [ht]
      simp [evaluateDepth]
    · show ∃ n, evaluateDepth ((arrayShrinkable ((genElems C d
          (drawNat g1 (maxArrayLength + 1)).1 (drawNat g1 (maxArrayLength + 1)).2).1)).value)
            = some n ∧ n ≤ d + 1
      rw [arrayShrinkable_value]
      obtain ⟨m, hm, hle⟩ := genElems_depth d ih (drawNat g1 (maxArrayLength + 1)).1
        (drawNat g1 (maxArrayLength + 1)).2
      refine ⟨1 + m, ?_, by omega⟩
      simp only [evaluateDepth, hm]
      rfl
    · show ∃ n, evaluateDepth ((objectShrinkable ((genEntries C d
          (drawNat g1 (maxObjectKeys + 1)).1 (drawNat g1 (maxObjectKeys + 1)).2).1)).value)
            = some n ∧ n ≤ d + 1
      rw [objectShrinkable_value]
      obtain ⟨m, hm, hle⟩ := genEntries_depth d ih (drawNat g1 (maxObjectKeys + 1)).1
        (drawNat g1 (maxObjectKeys + 1)).2
      refine ⟨1 + m, ?_, by omega⟩
      simp only [evaluateDepth, hm]
      rfl

theorem constant_vstr_leaf (vals : List String) :
    ∀ a ∈ (vals.map (fun s => constant (JsValue.vStr s))), ∀ g : RandomGenerator,
      ∃ t, ((a.generate g).1).value = .vStr t := by
  intro a ha g
  obtain ⟨s, hs, rfl⟩ := List.mem_map.mp ha
  exact ⟨s, rfl⟩

/-- C3: in the setting of the source tests "Should respect the maximal
depth parameter" (keys alternating over string constants, leaf values
drawn from string constants), a generation performed with `maxDepth = D`
yields a value whose `evaluateDepth` is defined and at most `D` for
`anything`, and at most `D + 1` for `object` — the forced top-level keyed
container consumes one extra level beyond the depth parameter. -/
theorem anything_object_respect_max_depth
    (seed : Int) (depth : Nat) (key0 value0 : String) (keys values : List String) :
    (∃ n, evaluateDepth (((anything ⟨oneof (constant key0) (keys.map constant),
        (value0 :: values).map (fun s => constant (JsValue.vStr s)),
        depth⟩).generate (fastincrease seed)).1).value = some n ∧ n ≤ depth) ∧
    (∃ n, evaluateDepth (((object ⟨oneof (constant key0) (keys.map constant),
        (value0 :: values).map (fun s => constant (JsValue.vStr s)),
        depth⟩).generate (fastincrease seed)).1).value = some n ∧ n ≤ depth + 1) := by
  constructor
  · exact genValue_depth (constant_vstr_leaf (value0 :: values)) (by simp) depth
      (fastincrease seed)
  · show ∃ n, evaluateDepth ((objectShrinkable ((genEntries
        ⟨oneof (constant key0) (keys.map constant),
         (value0 :: values).map (fun s => constant (JsValue.vStr s)), depth⟩ depth
        (drawNat (fastincrease seed) (maxObjectKeys + 1)).1
        (drawNat (fastincrease seed) (maxObjectKeys + 1)).2).1)).value) = some n ∧ n ≤ depth + 1
    rw [objectShrinkable_value]
    obtain ⟨m, hm, hle⟩ := genEntries_depth depth
      (@genValue_depth ⟨oneof (constant key0) (keys.map constant),
        (value0 :: values).map (fun s => constant (JsValue.vStr s)), depth⟩
        (constant_vstr_leaf (value0 :: values)) (by simp) depth)
      (drawNat (fastincrease seed) (maxObjectKeys + 1)).1
      (drawNat (fastincrease seed) (maxObjectKeys + 1)).2
    refine ⟨1 + m, ?_, by omega⟩
    simp only [evaluateDepth, hm]
    rfl

/-! ### Generic preservation of tree and value predicates over generation -/

theorem genLeaf_treeAll {C : ObjectConstraints} {P : Shrinkable JsValue → Prop}
    (hvals : ∀ a ∈ C.values, ∀ g, TreeAll P (a.generate g).1)
    (hne : C.values ≠ []) (g : RandomGenerator) :
    TreeAll P (genLeaf C g).1 := by
  unfold genLeaf
  rcases hdn : drawNat g C.values.length with ⟨i, g1⟩
  dsimp only
  have hlt : i < C.values.length := by
    have := drawNat_lt g (List.length_pos.mpr hne)
    rw [hdn] at this
    exact this
  have hmem : C.values.getD i (constant .vNull) ∈ C.values := by
    rw [List.getD_eq_getElem?_getD, List.getElem?_eq_getElem hlt]
    simp only [Option.getD_some]
    exact List.getElem_mem hlt
  exact hvals _ hmem _

theorem genValue_treeAll {C : ObjectConstraints} {P : Shrinkable JsValue → Prop}
    (hvals : ∀ a ∈ C.values, ∀ g, TreeAll P (a.generate g).1)
    (hne : C.values ≠ [])
    (harr : ∀ es, (∀ e ∈ es, TreeAll P e) → P (arrayShrinkable es))
    (hobj : ∀ kvs, (∀ p ∈ kvs, TreeAll P p.2) → P (objectShrinkable kvs)) :
    ∀ (d : Nat) (g : RandomGenerator), TreeAll P (genValue C d g).1 := by
  intro d
  induction d with
  | zero =>
    intro g
    rw [genValue]
    exact genLeaf_treeAll hvals hne g
  | succ d ih =>
    have helems : ∀ (k : Nat) (g : RandomGenerator),
        ∀ e ∈ (genElems C d k g).1, TreeAll P e := by
      intro k
      induction k with
      | zero =>
        intro g e he
        rw [genElems] at he
        exact absurd he (List.not_mem_nil e)
      | succ k ihk =>
        intro g e he
        rw [genElems] at he
        rcases hgv : genValue C d g with ⟨e1, g1⟩
        rw [hgv] at he
        dsimp only at he
        rcases hge : genElems C d k g1 with ⟨es, g2⟩
        rw [hge] at he
        dsimp only at he
        rcases List.mem_cons.mp he with rfl | he'
        · have := ih g
          rw [hgv] at this
          exact this
        · have := ihk g1 e
          rw [hge] at this
          exact this he'
    have hentries : ∀ (k : Nat) (g : RandomGenerator),
        ∀ p ∈ (genEntries C d k g).1, TreeAll P p.2 := by
      intro k
      induction k with
      | zero =>
        intro g p hp
        rw [genEntries] at hp
        exact absurd hp (List.not_mem_nil p)
      | succ k ihk =>
        intro g p hp
        rw [genEntries] at hp
        rcases hkg : C.key.generate g with ⟨kshr, g1⟩
        rw [hkg] at hp
        dsimp only at hp
        rcases hgv : genValue C d g1 with ⟨v1, g2⟩
        rw [hgv] at hp
        dsimp only at hp
        rcases hge : genEntries C d k g2 with ⟨kvs1, g3⟩
        rw [hge] at hp
        dsimp only at hp
        rcases List.mem_cons.mp hp with rfl | hp'
        · have := ih g1
          rw [hgv] at this
          exact this
        · have := ihk g2 p
          rw [hge] at this
          exact this hp'
    intro g
    rw [genValue]
    rcases hdn : drawNat g 3 with ⟨choice, g1⟩
    rcases choice with _ | _ | choice
    · exact genLeaf_treeAll hvals hne g1
    · dsimp only
      refine treeAll_arrayShrinkable P harr _ ?_
      intro e he
      exact helems _ _ e he
    · dsimp only
      refine treeAll_objectShrinkable P (fun _ => True) (fun kvs h => hobj kvs
        (fun p hp => (h p hp).2)) _ ?_
      intro p hp
      exact ⟨trivial, hentries _ _ p hp⟩

/-! ### Claim C8: floating-point sentinel extremes -/

/-- The floating-point sentinel extreme values of claim C8. -/
def isSentinelNum (v : JsValue) : Prop :=
  v = .vNum .nan ∨ v = .vNum .maxValue ∨ v = .vNum .minValue ∨
    v = .vNum .maxSafeInteger ∨ v = .vNum .minSafeInteger

/-- A node whose value is a sentinel extreme fully shrinks (along the
first-child path) either to the unchanged sentinel or to zero; a node whose
value is `NaN` keeps it unchanged. -/
def SentinelShrinkOk (s : Shrinkable JsValue) : Prop :=
  (isSentinelNum s.value →
    s.firstChildLimit = s.value ∨ s.firstChildLimit = .vNum (.int 0)) ∧
  (s.value = .vNum .nan → s.firstChildLimit = s.value)

theorem sentinelShrinkOk_of_not {s : Shrinkable JsValue}
    (h : ¬ isSentinelNum s.value) : SentinelShrinkOk s :=
  ⟨fun hc => absurd hc h, fun hc => absurd (Or.inl hc) h⟩

theorem treeAll_sentinelOk_boolTree (b : Bool) : TreeAll SentinelShrinkOk (boolTree b) := by
  cases b with
  | false =>
    refine TreeAll.node (sentinelShrinkOk_of_not ?_) ?_
    · simp [boolTree, Shrinkable.value, isSentinelNum]
    · intro c hc
      simp [boolTree, Shrinkable.shrink] at hc
  | true =>
    refine TreeAll.node (sentinelShrinkOk_of_not ?_) ?_
    · simp [boolTree, Shrinkable.value, isSentinelNum]
    · intro c hc
      simp only [boolTree, Shrinkable.shrink_mk, List.mem_singleton] at hc
      subst hc
      refine TreeAll.node (sentinelShrinkOk_of_not ?_) ?_
      · simp [Shrinkable.value, isSentinelNum]
      · intro c hc
        simp [Shrinkable.shrink] at hc

theorem treeAll_sentinelOk_intTree : ∀ n, TreeAll SentinelShrinkOk (intTree n) := by
  intro n
  induction n using intTree.induct with
  | case1 =>
    rw [intTree]
    simp only [dite_true]
    refine TreeAll.node (sentinelShrinkOk_of_not ?_) ?_
    · simp [Shrinkable.value, isSentinelNum]
    · intro c hc
      simp [Shrinkable.shrink] at hc
  | case2 n h ih =>
    rw [intTree]
    simp only [h, dite_false]
    refine TreeAll.node (sentinelShrinkOk_of_not ?_) ?_
    · simp [Shrinkable.value, isSentinelNum]
    · intro c hc
      simp only [Shrinkable.shrink_mk, List.mem_singleton] at hc
      subst hc
      exact ih

theorem treeAll_sentinelOk_strTreeChars : ∀ cs, TreeAll SentinelShrinkOk (strTreeChars cs) := by
  intro cs
  induction cs using strTreeChars.induct with
  | case1 =>
    rw [strTreeChars]
    simp only [dite_true]
    refine TreeAll.node (sentinelShrinkOk_of_not ?_) ?_
    · simp [Shrinkable.value, isSentinelNum]
    · intro c hc
      simp [Shrinkable.shrink] at hc
  | case2 cs h ih =>
    rw [strTreeChars]
    simp only [h, dite_false]
    refine TreeAll.node (sentinelShrinkOk_of_not ?_) ?_
    · simp [Shrinkable.value, isSentinelNum]
    · intro c hc
      simp only [Shrinkable.shrink_mk, List.mem_singleton] at hc
      subst hc
      exact ih

theorem treeAll_sentinelOk_constant (v : JsValue) :
    TreeAll SentinelShrinkOk (Shrinkable.mk v []) := by
  refine TreeAll.node ⟨?_, ?_⟩ ?_
  · intro _
    left
    rw [Shrinkable.firstChildLimit_nil, Shrinkable.value_mk]
  · intro _
    rw [Shrinkable.firstChildLimit_nil, Shrinkable.value_mk]
  · intro c hc
    simp [Shrinkable.shrink] at hc

theorem treeAll_sentinelOk_defaultValues :
    ∀ a ∈ defaultValues, ∀ g, TreeAll SentinelShrinkOk ((a.generate g)).1 := by
  intro a ha g
  simp only [defaultValues, List.mem_cons, List.not_mem_nil, or_false] at ha
  rcases ha with rfl | rfl | rfl | rfl | rfl | rfl | rfl | rfl | rfl | rfl
  · exact treeAll_sentinelOk_boolTree _
  · exact treeAll_sentinelOk_intTree _
  · exact treeAll_sentinelOk_strTreeChars _
  all_goals exact treeAll_sentinelOk_constant _

/-- C8: in every shrink tree generated by `anything()` with default
constraints, every node carrying a floating-point sentinel extreme value
(`NaN`, maximum/minimum finite magnitude, maximum/minimum
exactly-representable integer) fully shrinks along the first-child path
either to zero or to the unchanged original sentinel, never to any other
value; in particular a `NaN`-valued node's first-child limit is `NaN`
itself. -/
theorem anything_sentinel_extremes_shrink_to_zero_or_unchanged (g : RandomGenerator) :
    TreeAll SentinelShrinkOk (((anything defaultConstraints).generate g).1) ∧
    ((((anything defaultConstraints).generate g).1).value = .vNum .nan →
      (((anything defaultConstraints).generate g).1).firstChildLimit = .vNum .nan) := by
  have htree : TreeAll SentinelShrinkOk (((anything defaultConstraints).generate g).1) := by
    refine genValue_treeAll treeAll_sentinelOk_defaultValues (by simp [defaultConstraints, defaultValues]) ?_ ?_
      defaultConstraints.maxDepth g
    · intro es _
      refine sentinelShrinkOk_of_not ?_
      simp [arrayShrinkable_value, isSentinelNum]
    · intro kvs _
      refine sentinelShrinkOk_of_not ?_
      simp [objectShrinkable_value, isSentinelNum]
  refine ⟨htree, ?_⟩
  intro hnan
  rw [(htree.here).2 hnan, hnan]

/-! ### Claim C7: restartable shrink invocations -/

/-- C7: invoking `shrink()` on the same Shrinkable any number of times is
safe and yields the same sequence of children each time — the sequence
depends only on the immutable (value, children) pair, not on which call of
the consuming loop performs the invocation — so the source loop, which
calls `shrink()` once to test for a child and a second time to take it,
observes the same first element in both invocations and computes exactly
the first-child limit. -/
theorem shrink_invocations_restartable (s : Shrinkable JsValue) (i j : Nat) :
    invokeShrink s i = invokeShrink s j ∧
    (invokeShrink s i).head? = (invokeShrink s j).head? ∧
    (shrinkLoop s).value = s.firstChildLimit :=
  ⟨rfl, rfl, shrinkLoop_value s⟩

/-! ### Claim C6: determinism -/

/-- The sequence of integers drawn by `n` successive `next` calls. -/
def drawSeq : RandomGenerator → Nat → List Int
  | _, 0 => []
  | g, n + 1 =>
    let (x, g1) := g.next
    x :: drawSeq g1 n

/-- The sequence of Shrinkables generated by `n` successive trials of an
arbitrary, threading the generator state. -/
def genRun (a : Arbitrary JsValue) : RandomGenerator → Nat → List (Shrinkable JsValue)
  | _, 0 => []
  | g, n + 1 =>
    let (s, g1) := a.generate g
    s :: genRun a g1 n

/-- C6: two runs built from the same seed and the same arbitrary
composition produce identical draw sequences, identical sequences of
generated Shrinkables, and identical first-child shrink paths. -/
theorem same_seed_same_run (s1 s2 : Int) (h : s1 = s2) (n : Nat) :
    drawSeq (fastincrease s1) n = drawSeq (fastincrease s2) n ∧
    genRun (anything defaultConstraints) (fastincrease s1) n =
      genRun (anything defaultConstraints) (fastincrease s2) n ∧
    (genRun (anything defaultConstraints) (fastincrease s1) n).map Shrinkable.firstChildLimit =
      (genRun (anything defaultConstraints) (fastincrease s2) n).map Shrinkable.firstChildLimit := by
  subst h
  exact ⟨rfl, rfl, rfl⟩

/-- Witness for C6 at the concrete seed 42 and run length 5. -/
theorem same_seed_same_run_witness :
    drawSeq (fastincrease 42) 5 = drawSeq (fastincrease 42) 5 ∧
    genRun (anything defaultConstraints) (fastincrease 42) 5 =
      genRun (anything defaultConstraints) (fastincrease 42) 5 ∧
    (genRun (anything defaultConstraints) (fastincrease 42) 5).map Shrinkable.firstChildLimit =
      (genRun (anything defaultConstraints) (fastincrease 42) 5).map Shrinkable.firstChildLimit :=
  same_seed_same_run 42 42 rfl 5

/-! ### Claim C10: the prebuild script (prebuild.ts lines 1-7) -/

/-- Translation of `const NUM_PARAMETERS = 22` (prebuild.ts line 4). -/
def NUM_PARAMETERS : Nat := 22

/-- One `writeFileSync(path, content)` call of the prebuild script. -/
structure FileWrite where
  path : String
  content : String

/-- Translation of the prebuild script's effect (prebuild.ts lines 6-7):
the list of file writes it performs, parameterized by the `generateTuple`
and `generateTupleSpec` emitters imported from './tuple' (whose sources are
not supplied). -/
def prebuildWrites (generateTuple generateTupleSpec : Nat → String) : List FileWrite :=
  [⟨"./src/check/arbitrary/TupleArbitrary.generated.ts", generateTuple NUM_PARAMETERS⟩,
   ⟨"./test/unit/check/arbitrary/TupleArbitrary.generated.spec.ts",
    generateTupleSpec NUM_PARAMETERS⟩]

/-- C10: whatever the tuple emitters are, the prebuild utility writes
exactly two files, at the fixed paths of the generated tuple combinator
source and its companion generated test spec, each generated for the fixed
maximum arity `NUM_PARAMETERS = 22`. -/
theorem prebuild_writes_exactly_two_files (gt gts : Nat → String) :
    NUM_PARAMETERS = 22 ∧
    (prebuildWrites gt gts).length = 2 ∧
    (prebuildWrites gt gts).map FileWrite.path =
      ["./src/check/arbitrary/TupleArbitrary.generated.ts",
       "./test/unit/check/arbitrary/TupleArbitrary.generated.spec.ts"] ∧
    (prebuildWrites gt gts).map FileWrite.content = [gt 22, gts 22] :=
  ⟨rfl, rfl, rfl, rfl⟩

/-! ### JSON text: serializer, parser, and the json / unicodeJson arbitraries
(spec section 4.3, "JSON text") -/

theorem toNat_char_ofNat {n : Nat} (h : n < 55296) : (Char.ofNat n).toNat = n := by
  have hv : n.isValidChar := Or.inl h
  rw [Char.ofNat, dif_pos hv]
  simp [Char.ofNatAux, Char.toNat, UInt32.toNat, BitVec.toNat_ofNatLt]

/-- All characters of the string have code at least 32 (no raw control
characters), so its serialized form needs only quote/backslash escaping. -/
def StrOk (s : String) : Prop := ∀ c ∈ s.data, 32 ≤ c.toNat

/-- JSON-representable values (spec section 4.3): booleans, integer
numbers, control-free text, `null`, and arrays/objects thereof.  The
floating-point sentinels and `undefined` are not JSON-representable. -/
def IsJsonValue : JsValue → Prop
  | .vBool _ => True
  | .vNum (.int _) => True
  | .vNum _ => False
  | .vStr s => StrOk s
  | .vNull => True
  | .vUndef => False
  | .vArr xs => ∀ x ∈ xs, IsJsonValue x
  | .vObj kvs => ∀ p ∈ kvs, StrOk p.1 ∧ IsJsonValue p.2
termination_by v => sizeOf v
decreasing_by
  · have := List.sizeOf_lt_of_mem (by assumption : x ∈ xs)
    simp only [JsValue.vArr.sizeOf_spec]
    omega
  · have h1 := List.sizeOf_lt_of_mem (by assumption : p ∈ kvs)
    have h2 : sizeOf p.2 < sizeOf p := by
      obtain ⟨a, b⟩ := p
      simp only [Prod.mk.sizeOf_spec]
      omega
    simp only [JsValue.vObj.sizeOf_spec]
    omega

/-- Modelled from the spec: the constraints used by `json()` /
`unicodeJson()` — JSON-representable leaf shapes only; `span` is the size
of the character domain for text (restricted for `json`, full for
`unicodeJson`). -/
def jsonConstraints (span : Nat) : ObjectConstraints :=
  ⟨keyStringArb span,
   [booleanArb, integerArb, stringValueArb span, constant .vNull],
   defaultMaxDepth⟩

/-- The decimal digit character for `n < 10`. -/
def digitChar (n : Nat) : Char := Char.ofNat (48 + n)

/-- The decimal digits of a natural number, most significant first. -/
def natDigits (n : Nat) : List Char :=
  if n < 10 then [digitChar n]
  else natDigits (n / 10) ++ [digitChar (n % 10)]
termination_by n
decreasing_by
  exact Nat.div_lt_self (by omega) (by omega)

/-- The serialized form of an integer (decimal, `'-'` prefix if negative;
never `-0` since the sign is emitted only for strictly negative values). -/
def serInt (n : Int) : List Char :=
  if n < 0 then '-' :: natDigits n.natAbs else natDigits n.natAbs

/-- JSON string escaping restricted to the two characters that must be
escaped in a control-free string. -/
def escChar (c : Char) : List Char :=
  if c = '"' ∨ c = '\\' then ['\\', c] else [c]

/-- The escaped body of a JSON string literal. -/
def serStrBody : List Char → List Char
  | [] => []
  | c :: cs => escChar c ++ serStrBody cs

/-- A JSON string literal: quote, escaped body, quote. -/
def serStr (cs : List Char) : List Char := '"' :: (serStrBody cs ++ ['"'])

mutual

/-- Modelled from the spec: the canonical textual encoding used by
`json()` / `unicodeJson()` (`JSON.stringify` restricted to the shapes the
generator produces; non-JSON leaves serialize as `null`, as
`JSON.stringify` does inside containers). -/
def serValue : JsValue → List Char
  | .vBool true => ['t', 'r', 'u', 'e']
  | .vBool false => ['f', 'a', 'l', 's', 'e']
  | .vNum (.int n) => serInt n
  | .vNum _ => ['n', 'u', 'l', 'l']
  | .vStr s => serStr s.data
  | .vNull => ['n', 'u', 'l', 'l']
  | .vUndef => ['n', 'u', 'l', 'l']
  | .vArr [] => ['[', ']']
  | .vArr (x :: xs) => '[' :: (serElems (x :: xs) ++ [']'])
  | .vObj [] => ['{', '}']
  | .vObj (q :: qs) => '{' :: (serMembers (q :: qs) ++ ['}'])
termination_by v => sizeOf v

/-- The comma-separated serialized elements of a non-empty array. -/
def serElems : List JsValue → List Char
  | [] => []
  | [x] => serValue x
  | x :: y :: xs => serValue x ++ ',' :: serElems (y :: xs)
termination_by xs => sizeOf xs

/-- The comma-separated serialized members of a non-empty object. -/
def serMembers : List (String × JsValue) → List Char
  | [] => []
  | [(k, v)] => serStr k.data ++ ':' :: serValue v
  | (k, v) :: q :: qs => serStr k.data ++ ':' :: serValue v ++ ',' :: serMembers (q :: qs)
termination_by kvs => sizeOf kvs

end

/-- `JSON.stringify` at the `String` type. -/
def stringifyJs (v : JsValue) : String := String.mk (serValue v)

/-- Map a function over the value of every node of a shrink tree (the
text arbitrary wraps the structural one and re-serializes every shrink
candidate). -/
def mapShr (f : α → β) : Shrinkable α → Shrinkable β
  | .mk v cs => .mk (f v) (cs.attach.map (fun c => mapShr f c.1))
termination_by s => sizeOf s
decreasing_by
  have := List.sizeOf_lt_of_mem c.2
  simp only [Shrinkable.mk.sizeOf_spec]
  omega

/-- Modelled from the spec: `json()` — generates a JSON-shaped structure
(restricted text domain) and serializes it, every shrink candidate being
re-serialized (spec section 4.3). -/
def json : Arbitrary String :=
  ⟨fun g =>
    let (s, g1) := genValue (jsonConstraints asciiSpan) (jsonConstraints asciiSpan).maxDepth g
    (mapShr stringifyJs s, g1)⟩

/-- Modelled from the spec: `unicodeJson()` — as `json()` but with the
full text character domain. -/
def unicodeJson : Arbitrary String :=
  ⟨fun g =>
    let (s, g1) := genValue (jsonConstraints unicodeSpan) (jsonConstraints unicodeSpan).maxDepth g
    (mapShr stringifyJs s, g1)⟩

/-- Is `c` a decimal digit (48..57)? -/
def isDigitChar (c : Char) : Bool := 48 ≤ c.toNat && c.toNat ≤ 57

/-- Greedy decimal-digit consumption with an accumulator. -/
def parseDigits : List Char → Nat → Nat × List Char
  | [], acc => (acc, [])
  | c :: cs, acc =>
    if isDigitChar c then parseDigits cs (acc * 10 + (c.toNat - 48))
    else (acc, c :: cs)

/-- Parse the body of a JSON string literal after the opening quote,
unescaping backslash escapes and rejecting raw control characters (as
`JSON.parse` does). -/
def parseStringBody : List Char → Option (List Char × List Char)
  | [] => none
  | c :: cs =>
    if c = '"' then some ([], cs)
    else if c = '\\' then
      match cs with
      | [] => none
      | e :: cs2 => (parseStringBody cs2).map (fun r => (e :: r.1, r.2))
    else if c.toNat < 32 then none
    else (parseStringBody cs).map (fun r => (c :: r.1, r.2))

/-- Parse one or more comma-separated items terminated by `']'`, the
single item parser `p` being supplied by the caller. -/
def parseElemsF (p : List Char → Option (JsValue × List Char)) :
    Nat → List Char → Option (List JsValue × List Char)
  | 0, _ => none
  | k + 1, cs =>
    (p cs).bind (fun r =>
      match r.2 with
      | ',' :: rest => (parseElemsF p k rest).map (fun r2 => (r.1 :: r2.1, r2.2))
      | ']' :: rest => some ([r.1], rest)
      | _ => none)

/-- Parse one or more comma-separated string-keyed members terminated by
`'}'`, the value parser `p` being supplied by the caller. -/
def parseMembersF (p : List Char → Option (JsValue × List Char)) :
    Nat → List Char → Option (List (String × JsValue) × List Char)
  | 0, _ => none
  | k + 1, cs =>
    match cs with
    | '"' :: rest =>
      (parseStringBody rest).bind (fun rk =>
        match rk.2 with
        | ':' :: rest2 =>
          (p rest2).bind (fun rv =>
            match rv.2 with
            | ',' :: rest3 =>
              (parseMembersF p k rest3).map
                (fun rm => ((String.mk rk.1, rv.1) :: rm.1, rm.2))
            | '}' :: rest3 => some ([(String.mk rk.1, rv.1)], rest3)
            | _ => none)
        | _ => none)
    | _ => none

/-- One step of the value parser: `p` parses nested values (carrying one
unit less fuel) and `k` bounds the number of container items. -/
def parseValueBody (p : List Char → Option (JsValue × List Char)) (k : Nat) :
    List Char → Option (JsValue × List Char)
  | [] => none
  | c :: rest =>
    if c = 't' then
      match rest with
      | 'r' :: 'u' :: 'e' :: r2 => some (.vBool true, r2)
      | _ => none
    else if c = 'f' then
      match rest with
      | 'a' :: 'l' :: 's' :: 'e' :: r2 => some (.vBool false, r2)
      | _ => none
    else if c = 'n' then
      match rest with
      | 'u' :: 'l' :: 'l' :: r2 => some (.vNull, r2)
      | _ => none
    else if c = '"' then
      (parseStringBody rest).map (fun r => (.vStr (String.mk r.1), r.2))
    else if c = '[' then
      match rest with
      | [] => none
      | c2 :: r2 =>
        if c2 = ']' then some (.vArr [], r2)
        else (parseElemsF p k (c2 :: r2)).map (fun r => (.vArr r.1, r.2))
    else if c = '{' then
      match rest with
      | [] => none
      | c2 :: r2 =>
        if c2 = '}' then some (.vObj [], r2)
        else (parseMembersF p k (c2 :: r2)).map (fun r => (.vObj r.1, r.2))
    else if c = '-' then
      match rest with
      | [] => none
      | c2 :: _ =>
        if isDigitChar c2 then
          some (.vNum (.int (-((parseDigits rest 0).1 : Int))), (parseDigits rest 0).2)
        else none
    else if isDigitChar c then
      some (.vNum (.int ((parseDigits (c :: rest) 0).1 : Int)), (parseDigits (c :: rest) 0).2)
    else none

/-- Modelled from the spec: a recursive-descent model of `JSON.parse` on
the character list, total by fuel; it accepts exactly the
standard-JSON-syntax texts of the shapes our serializer emits and fails
(`none`) otherwise. -/
def parseValue : Nat → List Char → Option (JsValue × List Char)
  | 0, _ => none
  | fuel + 1, cs => parseValueBody (parseValue fuel) fuel cs
termination_by structural fuel => fuel

theorem parseValue_succ (f : Nat) (cs : List Char) :
    parseValue (f + 1) cs = parseValueBody (parseValue f) f cs := rfl

mutual

/-- Enough fuel for `parseValue` to parse the serialized form of `v`. -/
def pfuelV : JsValue → Nat
  | .vArr xs => 1 + pfuelE xs
  | .vObj kvs => 1 + pfuelM kvs
  | .vBool _ => 1
  | .vNum _ => 1
  | .vStr _ => 1
  | .vNull => 1
  | .vUndef => 1
termination_by v => sizeOf v

/-- Enough fuel for `parseElems` over the serialized elements. -/
def pfuelE : List JsValue → Nat
  | [] => 1
  | x :: xs => 1 + pfuelV x + pfuelE xs
termination_by xs => sizeOf xs

/-- Enough fuel for `parseMembers` over the serialized members. -/
def pfuelM : List (String × JsValue) → Nat
  | [] => 1
  | (k, v) :: qs => 1 + pfuelV v + pfuelM qs
termination_by kvs => sizeOf kvs

end

/-! ### Round-trip of the serializer through the parser -/

/-- The input does not begin with a decimal digit (so a preceding greedy
number parse stops exactly at its boundary). -/
def headNotDigit : List Char → Prop
  | [] => True
  | c :: _ => isDigitChar c = false

theorem isDigitChar_iff {c : Char} : isDigitChar c = true ↔ 48 ≤ c.toNat ∧ c.toNat ≤ 57 := by
  simp [isDigitChar]

theorem toNat_digitChar {n : Nat} (h : n < 10) : (digitChar n).toNat = 48 + n :=
  toNat_char_ofNat (by omega)

theorem isDigitChar_digitChar {n : Nat} (h : n < 10) : isDigitChar (digitChar n) = true := by
  rw [isDigitChar_iff, toNat_digitChar h]
  omega

theorem parseDigits_stop {cs : List Char} (h : headNotDigit cs) (acc : Nat) :
    parseDigits cs acc = (acc, cs) := by
  cases cs with
  | nil => rfl
  | cons c cs =>
    rw [parseDigits]
    simp [headNotDigit] at h
    simp [h]

theorem parseDigits_append {ds : List Char} (hds : ∀ c ∈ ds, isDigitChar c = true) :
    ∀ (rest : List Char) (acc : Nat),
      parseDigits (ds ++ rest) acc =
        parseDigits rest (ds.foldl (fun a c => a * 10 + (c.toNat - 48)) acc) := by
  induction ds with
  | nil => intro rest acc; simp
  | cons d ds ih =>
    intro rest acc
    have hd := hds d (List.mem_cons_self d ds)
    rw [List.cons_append, parseDigits, if_pos hd, List.foldl_cons]
    exact ih (fun c hc => hds c (List.mem_cons_of_mem d hc)) rest _

theorem natDigits_all_digits : ∀ n, ∀ c ∈ natDigits n, isDigitChar c = true := by
  intro n
  induction n using natDigits.induct with
  | case1 n h =>
    rw [natDigits, if_pos h]
    intro c hc
    rw [List.mem_singleton] at hc
    subst hc
    exact isDigitChar_digitChar h
  | case2 n h ih =>
    rw [natDigits, if_neg h]
    intro c hc
    rcases List.mem_append.mp hc with h1 | h1
    · exact ih c h1
    · rw [List.mem_singleton] at h1
      subst h1
      exact isDigitChar_digitChar (Nat.mod_lt n (by omega))

theorem natDigits_ne_nil (n : Nat) : natDigits n ≠ [] := by
  rw [natDigits]
  by_cases h : n < 10
  · simp [h]
  · simp [h]

theorem foldl_natDigits : ∀ (n : Nat) (acc : Nat),
    (natDigits n).foldl (fun a c => a * 10 + (c.toNat - 48)) acc =
      acc * 10 ^ (natDigits n).length + n := by
  intro n
  induction n using natDigits.induct with
  | case1 n h =>
    intro acc
    rw [natDigits, if_pos h]
    simp only [List.foldl_cons, List.foldl_nil, List.length_singleton, pow_one,
      toNat_digitChar h]
    omega
  | case2 n h ih =>
    intro acc
    rw [natDigits, if_neg h, List.foldl_append, ih, List.length_append]
    simp only [List.foldl_cons, List.foldl_nil, List.length_singleton,
      toNat_digitChar (Nat.mod_lt n (by omega)), Nat.add_sub_cancel_left, pow_succ]
    have hmod : 10 * (n / 10) + n % 10 = n := Nat.div_add_mod n 10
    have hexp : (acc * 10 ^ (natDigits (n / 10)).length + n / 10) * 10 + n % 10
        = acc * (10 ^ (natDigits (n / 10)).length * 10) + (10 * (n / 10) + n % 10) := by
      ring
    rw [hexp, hmod]

theorem parseDigits_natDigits (n : Nat) {rest : List Char} (h : headNotDigit rest) :
    parseDigits (natDigits n ++ rest) 0 = (n, rest) := by
  rw [parseDigits_append (natDigits_all_digits n) rest 0, parseDigits_stop h,
    foldl_natDigits]
  simp

theorem parseStringBody_serStrBody :
    ∀ (cs : List Char), (∀ c ∈ cs, 32 ≤ c.toNat) → ∀ (rest : List Char),
      parseStringBody (serStrBody cs ++ '"' :: rest) = some (cs, rest) := by
  intro cs
  induction cs with
  | nil =>
    intro _ rest
    rw [serStrBody, List.nil_append]
    simp [parseStringBody.eq_def]
  | cons c cs ih =>
    intro h rest
    have hc32 : 32 ≤ c.toNat := h c (List.mem_cons_self c cs)
    have hcs := fun c hc => h c (List.mem_cons_of_mem _ hc)
    rw [serStrBody]
    by_cases hc : c = '"' ∨ c = '\\'
    · rw [escChar, if_pos hc]
      show parseStringBody ('\\' :: c :: (serStrBody cs ++ '"' :: rest)) = _
      rw [parseStringBody.eq_def]
      have hbs : ¬ ('\\' : Char) = '"' := by decide
      dsimp only
      rw [if_neg hbs, if_pos rfl, ih hcs rest]
      rfl
    · rw [escChar, if_neg hc]
      show parseStringBody (c :: (serStrBody cs ++ '"' :: rest)) = _
      rw [parseStringBody.eq_def]
      dsimp only
      have h1 : ¬ c = '"' := fun he => hc (Or.inl he)
      have h2 : ¬ c = '\\' := fun he => hc (Or.inr he)
      have h3 : ¬ c.toNat < 32 := by omega
      rw [if_neg h1, if_neg h2, if_neg h3, ih hcs rest]
      rfl

theorem serValue_bool_true : serValue (.vBool true) = ['t', 'r', 'u', 'e'] := by
  rw [serValue]

theorem serValue_bool_false : serValue (.vBool false) = ['f', 'a', 'l', 's', 'e'] := by
  rw [serValue]

theorem serValue_int (n : Int) : serValue (.vNum (.int n)) = serInt n := by
  rw [serValue]

theorem serValue_null : serValue .vNull = ['n', 'u', 'l', 'l'] := by
  rw [serValue]

theorem serValue_str (s : String) : serValue (.vStr s) = serStr s.data := by
  rw [serValue]

theorem serValue_arr_nil : serValue (.vArr []) = ['[', ']'] := by
  rw [serValue]

theorem serValue_arr_cons (x : JsValue) (xs : List JsValue) :
    serValue (.vArr (x :: xs)) = '[' :: (serElems (x :: xs) ++ [']']) := by
  rw [serValue]

theorem serValue_obj_nil : serValue (.vObj []) = ['{', '}'] := by
  rw [serValue]

theorem serValue_obj_cons (q : String × JsValue) (qs : List (String × JsValue)) :
    serValue (.vObj (q :: qs)) = '{' :: (serMembers (q :: qs) ++ ['}']) := by
  rw [serValue]

theorem serElems_single (x : JsValue) : serElems [x] = serValue x := by
  rw [serElems]

theorem serElems_cons2 (x y : JsValue) (xs : List JsValue) :
    serElems (x :: y :: xs) = serValue x ++ ',' :: serElems (y :: xs) := by
  rw [serElems]

theorem serMembers_single (k : String) (v : JsValue) :
    serMembers [(k, v)] = serStr k.data ++ ':' :: serValue v := by
  rw [serMembers]

theorem serMembers_cons2 (k : String) (v : JsValue) (q : String × JsValue)
    (qs : List (String × JsValue)) :
    serMembers ((k, v) :: q :: qs) =
      serStr k.data ++ ':' :: serValue v ++ ',' :: serMembers (q :: qs) := by
  rw [serMembers]

theorem digit_ne_of_toNat {c t : Char} (h : isDigitChar c = true)
    (ht : t.toNat < 48 ∨ 57 < t.toNat) : c ≠ t := by
  intro he
  subst he
  obtain ⟨h1, h2⟩ := isDigitChar_iff.mp h
  omega

/-- The first character of any serialized value: it is never a closing
bracket, closing brace, comma or colon, so the delimiter matches in the
container parsers cannot fire early. -/
theorem serValue_head (v : JsValue) :
    ∃ c t, serValue v = c :: t ∧ c ≠ ']' ∧ c ≠ '}' := by
  cases v with
  | vBool b =>
    cases b with
    | true => exact ⟨'t', _, serValue_bool_true, by decide, by decide⟩
    | false => exact ⟨'f', _, serValue_bool_false, by decide, by decide⟩
  | vNum m =>
    cases m with
    | int n =>
      rw [serValue_int, serInt]
      by_cases hn : n < 0
      · rw [if_pos hn]
        exact ⟨'-', _, rfl, by decide, by decide⟩
      · rw [if_neg hn]
        cases hnd : natDigits n.natAbs with
        | nil => exact absurd hnd (natDigits_ne_nil _)
        | cons d ds =>
          have hd : isDigitChar d = true :=
            natDigits_all_digits n.natAbs d (by rw [hnd]; exact List.mem_cons_self d ds)
          exact ⟨d, ds, rfl, digit_ne_of_toNat hd (by decide),
            digit_ne_of_toNat hd (by decide)⟩
    | nan => exact ⟨'n', _, by rw [serValue] <;> simp, by decide, by decide⟩
    | maxValue => exact ⟨'n', _, by rw [serValue] <;> simp, by decide, by decide⟩
    | minValue => exact ⟨'n', _, by rw [serValue] <;> simp, by decide, by decide⟩
    | maxSafeInteger => exact ⟨'n', _, by rw [serValue] <;> simp, by decide, by decide⟩
    | minSafeInteger => exact ⟨'n', _, by rw [serValue] <;> simp, by decide, by decide⟩
  | vStr s => exact ⟨'"', _, by rw [serValue_str, serStr], by decide, by decide⟩
  | vNull => exact ⟨'n', _, serValue_null, by decide, by decide⟩
  | vUndef => exact ⟨'n', _, by rw [serValue], by decide, by decide⟩
  | vArr xs =>
    cases xs with
    | nil => exact ⟨'[', _, serValue_arr_nil, by decide, by decide⟩
    | cons x xs => exact ⟨'[', _, serValue_arr_cons x xs, by decide, by decide⟩
  | vObj kvs =>
    cases kvs with
    | nil => exact ⟨'{', _, serValue_obj_nil, by decide, by decide⟩
    | cons q qs => exact ⟨'{', _, serValue_obj_cons q qs, by decide, by decide⟩

theorem pfuelV_pos (v : JsValue) : 1 ≤ pfuelV v := by
  cases v <;> rw [pfuelV] <;> omega

theorem pfuelE_pos (xs : List JsValue) : 1 ≤ pfuelE xs := by
  cases xs <;> rw [pfuelE] <;> omega

theorem pfuelM_pos (kvs : List (String × JsValue)) : 1 ≤ pfuelM kvs := by
  cases kvs with
  | nil => rw [pfuelM]
  | cons q qs =>
    obtain ⟨k, v⟩ := q
    rw [pfuelM]
    omega

theorem headNotDigit_cons {c : Char} {r : List Char} (h : isDigitChar c = false) :
    headNotDigit (c :: r) := h

theorem string_mk_data (s : String) : String.mk s.data = s := rfl

theorem pfuelV_le_pfuelE : ∀ {xs : List JsValue}, ∀ x ∈ xs, pfuelV x ≤ pfuelE xs := by
  intro xs
  induction xs with
  | nil => intro x hx; exact absurd hx (List.not_mem_nil x)
  | cons y ys ih =>
    intro x hx
    rw [pfuelE]
    rcases List.mem_cons.mp hx with rfl | hx'
    · omega
    · have := ih x hx'
      omega

theorem length_lt_pfuelE : ∀ (xs : List JsValue), xs.length < pfuelE xs := by
  intro xs
  induction xs with
  | nil => rw [pfuelE]; simp
  | cons y ys ih =>
    rw [pfuelE]
    have := pfuelV_pos y
    simp only [List.length_cons]
    omega

theorem pfuelV_le_pfuelM :
    ∀ {kvs : List (String × JsValue)}, ∀ q ∈ kvs, pfuelV q.2 ≤ pfuelM kvs := by
  intro kvs
  induction kvs with
  | nil => intro q hq; exact absurd hq (List.not_mem_nil q)
  | cons p ps ih =>
    obtain ⟨k, v⟩ := p
    intro q hq
    rw [pfuelM]
    rcases List.mem_cons.mp hq with rfl | hq'
    · dsimp only
      omega
    · have := ih q hq'
      omega

theorem length_lt_pfuelM : ∀ (kvs : List (String × JsValue)), kvs.length < pfuelM kvs := by
  intro kvs
  induction kvs with
  | nil => rw [pfuelM]; simp
  | cons p ps ih =>
    obtain ⟨k, v⟩ := p
    rw [pfuelM]
    have := pfuelV_pos v
    simp only [List.length_cons]
    omega

/-- The serialized elements of a non-empty array, followed by `']'`, parse
back to exactly those elements, provided the item parser `p` is correct on
each element. -/
theorem parseElemsF_ser (p : List Char → Option (JsValue × List Char)) :
    ∀ (xs : List JsValue), xs ≠ [] →
      (∀ x ∈ xs, ∀ r : List Char, headNotDigit r → p (serValue x ++ r) = some (x, r)) →
      ∀ (k : Nat), xs.length ≤ k → ∀ rest : List Char,
        parseElemsF p k (serElems xs ++ ']' :: rest) = some (xs, rest) := by
  intro xs
  induction xs with
  | nil => intro h; exact absurd rfl h
  | cons x xs ih =>
    intro _ hp k hk rest
    obtain ⟨k', rfl⟩ : ∃ k', k = k' + 1 :=
      ⟨k - 1, by simp only [List.length_cons] at hk; omega⟩
    cases xs with
    | nil =>
      rw [serElems_single, parseElemsF,
        hp x (List.mem_cons_self x []) (']' :: rest) (headNotDigit_cons (by decide))]
      rfl
    | cons y ys =>
      have ihh := ih (by simp) (fun z hz r hr => hp z (List.mem_cons_of_mem x hz) r hr) k'
        (by simp only [List.length_cons] at hk ⊢; omega) rest
      rw [serElems_cons2]
      show parseElemsF p (k' + 1) ((serValue x ++ ',' :: serElems (y :: ys)) ++ ']' :: rest) = _
      rw [List.append_assoc, List.cons_append, parseElemsF,
        hp x (List.mem_cons_self x (y :: ys)) _ (headNotDigit_cons (by decide))]
      simp [ihh]

/-- The serialized members of a non-empty object, followed by `'}'`, parse
back to exactly those members, provided the value parser `p` is correct on
each member value and every key is control-free. -/
theorem parseMembersF_ser (p : List Char → Option (JsValue × List Char)) :
    ∀ (kvs : List (String × JsValue)), kvs ≠ [] →
      (∀ q ∈ kvs, StrOk q.1) →
      (∀ q ∈ kvs, ∀ r : List Char, headNotDigit r → p (serValue q.2 ++ r) = some (q.2, r)) →
      ∀ (k : Nat), kvs.length ≤ k → ∀ rest : List Char,
        parseMembersF p k (serMembers kvs ++ '}' :: rest) = some (kvs, rest) := by
  intro kvs
  induction kvs with
  | nil => intro h; exact absurd rfl h
  | cons q qs ih =>
    obtain ⟨kq, v⟩ := q
    intro _ hkeys hp k hk rest
    obtain ⟨k', rfl⟩ : ∃ k', k = k' + 1 :=
      ⟨k - 1, by simp only [List.length_cons] at hk; omega⟩
    have hkok : StrOk kq := hkeys (kq, v) (List.mem_cons_self _ qs)
    cases qs with
    | nil =>
      rw [serMembers_single, serStr]
      show parseMembersF p (k' + 1)
        (('"' :: (serStrBody kq.data ++ ['"']) ++ ':' :: serValue v) ++ '}' :: rest) = _
      have hshape : ('"' :: (serStrBody kq.data ++ ['"']) ++ ':' :: serValue v) ++ '}' :: rest
          = '"' :: (serStrBody kq.data ++ '"' :: (':' :: (serValue v ++ '}' :: rest))) := by
        simp
      rw [hshape, parseMembersF, parseStringBody_serStrBody kq.data hkok]
      have hpv := hp (kq, v) (List.mem_cons_self _ []) ('}' :: rest)
        (headNotDigit_cons (by decide))
      simp [hpv, string_mk_data]
    | cons q2 qs2 =>
      have ihh := ih (by simp) (fun z hz => hkeys z (List.mem_cons_of_mem _ hz))
        (fun z hz r hr => hp z (List.mem_cons_of_mem _ hz) r hr) k'
        (by simp only [List.length_cons] at hk ⊢; omega) rest
      rw [serMembers_cons2, serStr]
      show parseMembersF p (k' + 1)
        (('"' :: (serStrBody kq.data ++ ['"']) ++ ':' :: serValue v ++
          ',' :: serMembers (q2 :: qs2)) ++ '}' :: rest) = _
      have hshape : ('"' :: (serStrBody kq.data ++ ['"']) ++ ':' :: serValue v ++
            ',' :: serMembers (q2 :: qs2)) ++ '}' :: rest
          = '"' :: (serStrBody kq.data ++ '"' :: (':' :: (serValue v ++
            ',' :: (serMembers (q2 :: qs2) ++ '}' :: rest)))) := by
        simp
      rw [hshape, parseMembersF, parseStringBody_serStrBody kq.data hkok]
      have hpv := hp (kq, v) (List.mem_cons_self _ (q2 :: qs2))
        (',' :: (serMembers (q2 :: qs2) ++ '}' :: rest)) (headNotDigit_cons (by decide))
      simp [hpv, ihh, string_mk_data]

theorem jsValue_sizeOf_pos (v : JsValue) : 1 ≤ sizeOf v := by
  cases v <;>
    simp only [JsValue.vBool.sizeOf_spec, JsValue.vNum.sizeOf_spec, JsValue.vStr.sizeOf_spec,
      JsValue.vNull.sizeOf_spec, JsValue.vUndef.sizeOf_spec, JsValue.vArr.sizeOf_spec,
      JsValue.vObj.sizeOf_spec] <;>
    omega

theorem parse_serValue_aux : ∀ (N : Nat) (v : JsValue), sizeOf v ≤ N → IsJsonValue v →
    ∀ (fuel : Nat), pfuelV v ≤ fuel → ∀ (rest : List Char), headNotDigit rest →
      parseValue fuel (serValue v ++ rest) = some (v, rest) := by
  intro N
  induction N with
  | zero =>
    intro v hsz
    have := jsValue_sizeOf_pos v
    omega
  | succ N ih =>
    intro v hsz hv fuel hfuel rest hrest
    obtain ⟨f, rfl⟩ : ∃ f, fuel = f + 1 :=
      ⟨fuel - 1, by have := pfuelV_pos v; omega⟩
    cases v with
    | vBool b =>
      cases b with
      | true =>
        rw [serValue_bool_true]
        rfl
      | false =>
        rw [serValue_bool_false]
        rfl
    | vNum m =>
      cases m with
      | int n =>
        rw [serValue_int, serInt]
        by_cases hn : n < 0
        · rw [if_pos hn]
          cases hnd : natDigits n.natAbs with
          | nil => exact absurd hnd (natDigits_ne_nil _)
          | cons d ds =>
            have hd : isDigitChar d = true :=
              natDigits_all_digits n.natAbs d (by rw [hnd]; exact List.mem_cons_self d ds)
            have hxx : d :: (ds ++ rest) = natDigits n.natAbs ++ rest := by
              rw [hnd, List.cons_append]
            rw [List.cons_append, parseValue_succ, parseValueBody.eq_def]
            dsimp only
            rw [if_neg (by decide : ¬ ('-' : Char) = 't'),
              if_neg (by decide : ¬ ('-' : Char) = 'f'),
              if_neg (by decide : ¬ ('-' : Char) = 'n'),
              if_neg (by decide : ¬ ('-' : Char) = '"'),
              if_neg (by decide : ¬ ('-' : Char) = '['),
              if_neg (by decide : ¬ ('-' : Char) = '{'),
              if_pos rfl, List.cons_append]
            dsimp only
            rw [if_pos hd, hxx, parseDigits_natDigits n.natAbs hrest]
            have hval : -((n.natAbs : Int)) = n := by omega
            rw [hval]
        · rw [if_neg hn]
          cases hnd : natDigits n.natAbs with
          | nil => exact absurd hnd (natDigits_ne_nil _)
          | cons d ds =>
            have hd : isDigitChar d = true :=
              natDigits_all_digits n.natAbs d (by rw [hnd]; exact List.mem_cons_self d ds)
            have hxx : d :: (ds ++ rest) = natDigits n.natAbs ++ rest := by
              rw [hnd, List.cons_append]
            rw [List.cons_append, parseValue_succ, parseValueBody.eq_def]
            dsimp only
            rw [if_neg (digit_ne_of_toNat hd (by decide)),
              if_neg (digit_ne_of_toNat hd (by decide)),
              if_neg (digit_ne_of_toNat hd (by decide)),
              if_neg (digit_ne_of_toNat hd (by decide)),
              if_neg (digit_ne_of_toNat hd (by decide)),
              if_neg (digit_ne_of_toNat hd (by decide)),
              if_neg (digit_ne_of_toNat hd (by decide)),
              if_pos hd, hxx, parseDigits_natDigits n.natAbs hrest]
            have hval : ((n.natAbs : Int)) = n := Int.natAbs_of_nonneg (le_of_not_lt hn)
            rw [hval]
      | nan => simp [IsJsonValue] at hv
      | maxValue => simp [IsJsonValue] at hv
      | minValue => simp [IsJsonValue] at hv
      | maxSafeInteger => simp [IsJsonValue] at hv
      | minSafeInteger => simp [IsJsonValue] at hv
    | vStr s =>
      have hok : StrOk s := by simpa [IsJsonValue] using hv
      rw [serValue_str, serStr, List.cons_append, List.append_assoc,
        List.singleton_append, parseValue_succ, parseValueBody.eq_def]
      dsimp only
      rw [if_neg (by decide : ¬ ('"' : Char) = 't'),
        if_neg (by decide : ¬ ('"' : Char) = 'f'),
        if_neg (by decide : ¬ ('"' : Char) = 'n'),
        if_pos rfl, parseStringBody_serStrBody s.data hok rest]
      simp [string_mk_data]
    | vNull =>
      rw [serValue_null]
      rfl
    | vUndef => simp [IsJsonValue] at hv
    | vArr xs =>
      cases xs with
      | nil =>
        rw [serValue_arr_nil]
        rfl
      | cons x xs =>
        have hvs : ∀ y ∈ x :: xs, IsJsonValue y := by
          rw [IsJsonValue] at hv
          exact hv
        have hfe : pfuelE (x :: xs) ≤ f := by
          rw [pfuelV] at hfuel
          omega
        obtain ⟨c, t, hct, hc1, hc2⟩ := serValue_head x
        have hse : ∃ t2, serElems (x :: xs) = c :: t2 := by
          cases xs with
          | nil => exact ⟨t, by rw [serElems_single, hct]⟩
          | cons y ys => exact ⟨t ++ ',' :: serElems (y :: ys), by
              rw [serElems_cons2, hct]; rfl⟩
        obtain ⟨t2, ht2⟩ := hse
        have hall : ∀ z ∈ x :: xs, ∀ r : List Char, headNotDigit r →
            parseValue f (serValue z ++ r) = some (z, r) := by
          intro z hz r hr
          have hlt : sizeOf z < sizeOf (JsValue.vArr (x :: xs)) := by
            have := List.sizeOf_lt_of_mem hz
            simp only [JsValue.vArr.sizeOf_spec]
            omega
          refine ih z (by omega) (hvs z hz) f ?_ r hr
          have h1 : pfuelV z ≤ pfuelE (x :: xs) := pfuelV_le_pfuelE z hz
          omega
        have helems := parseElemsF_ser (parseValue f) (x :: xs) (by simp) hall f
          (le_trans (le_of_lt (length_lt_pfuelE _)) hfe) rest
        have hxx : c :: (t2 ++ ']' :: rest) = serElems (x :: xs) ++ ']' :: rest := by
          rw [ht2, List.cons_append]
        rw [serValue_arr_cons, List.cons_append, List.append_assoc,
          List.singleton_append, parseValue_succ, parseValueBody.eq_def]
        dsimp only
        rw [if_neg (by decide : ¬ ('[' : Char) = 't'),
          if_neg (by decide : ¬ ('[' : Char) = 'f'),
          if_neg (by decide : ¬ ('[' : Char) = 'n'),
          if_neg (by decide : ¬ ('[' : Char) = '"'),
          if_pos rfl, ht2, List.cons_append]
        dsimp only
        rw [if_neg hc1, hxx, helems]
        rfl
    | vObj kvs =>
      cases kvs with
      | nil =>
        rw [serValue_obj_nil]
        rfl
      | cons q qs =>
        have hvs : ∀ p ∈ q :: qs, StrOk p.1 ∧ IsJsonValue p.2 := by
          rw [IsJsonValue] at hv
          exact hv
        have hfm : pfuelM (q :: qs) ≤ f := by
          rw [pfuelV] at hfuel
          omega
        have hse : ∃ t2, serMembers (q :: qs) = '"' :: t2 := by
          obtain ⟨k, v⟩ := q
          cases qs with
          | nil => exact ⟨serStrBody k.data ++ ['"'] ++ ':' :: serValue v, by
              rw [serMembers_single, serStr]; rfl⟩
          | cons q2 qs2 => exact ⟨serStrBody k.data ++ ['"'] ++ ':' :: serValue v ++
              ',' :: serMembers (q2 :: qs2), by rw [serMembers_cons2, serStr]; rfl⟩
        obtain ⟨t2, ht2⟩ := hse
        have hall : ∀ p ∈ q :: qs, ∀ r : List Char, headNotDigit r →
            parseValue f (serValue p.2 ++ r) = some (p.2, r) := by
          intro p hp r hr
          have hlt : sizeOf p.2 < sizeOf (JsValue.vObj (q :: qs)) := by
            have h2 := List.sizeOf_lt_of_mem hp
            have h3 : sizeOf p.2 < sizeOf p := by
              obtain ⟨a, b⟩ := p
              simp only [Prod.mk.sizeOf_spec]
              omega
            simp only [JsValue.vObj.sizeOf_spec]
            omega
          refine ih p.2 (by omega) (hvs p hp).2 f ?_ r hr
          have h1 : pfuelV p.2 ≤ pfuelM (q :: qs) := pfuelV_le_pfuelM p hp
          omega
        have hmem := parseMembersF_ser (parseValue f) (q :: qs) (by simp)
          (fun z hz => (hvs z hz).1) hall f
          (le_trans (le_of_lt (length_lt_pfuelM _)) hfm) rest
        have hxx : '"' :: (t2 ++ '}' :: rest) = serMembers (q :: qs) ++ '}' :: rest := by
          rw [ht2, List.cons_append]
        rw [serValue_obj_cons, List.cons_append, List.append_assoc,
          List.singleton_append, parseValue_succ, parseValueBody.eq_def]
        dsimp only
        rw [if_neg (by decide : ¬ ('{' : Char) = 't'),
          if_neg (by decide : ¬ ('{' : Char) = 'f'),
          if_neg (by decide : ¬ ('{' : Char) = 'n'),
          if_neg (by decide : ¬ ('{' : Char) = '"'),
          if_neg (by decide : ¬ ('{' : Char) = '['),
          if_pos rfl, ht2, List.cons_append]
        dsimp only
        rw [if_neg (by decide : ¬ ('"' : Char) = '}'), hxx, hmem]
        rfl

/-- The serialized form of every JSON-representable value parses back to
exactly that value, leaving the rest of the input untouched, whenever the
rest does not begin with a digit. -/
theorem parse_serValue (v : JsValue) (hv : IsJsonValue v) (fuel : Nat)
    (hfuel : pfuelV v ≤ fuel) (rest : List Char) (hrest : headNotDigit rest) :
    parseValue fuel (serValue v ++ rest) = some (v, rest) :=
  parse_serValue_aux (sizeOf v) v (Nat.le_refl _) hv fuel hfuel rest hrest

/-! ### Properties of the generated JSON trees -/

theorem mapShr_mk (f : α → β) (v : α) (cs : List (Shrinkable α)) :
    mapShr f (.mk v cs) = .mk (f v) (cs.attach.map (fun c => mapShr f c.1)) := by
  rw [mapShr]

theorem mapShr_value (f : α → β) (s : Shrinkable α) : (mapShr f s).value = f s.value := by
  cases s with
  | mk v cs => rw [mapShr_mk, Shrinkable.value_mk, Shrinkable.value_mk]

theorem firstChildLimit_mapShr [SizeOf α] [SizeOf β] (f : α → β) :
    ∀ s : Shrinkable α, (mapShr f s).firstChildLimit = f s.firstChildLimit := by
  intro s
  induction s using Shrinkable.firstChildLimit.induct with
  | case1 v =>
    rw [mapShr_mk]
    simp [Shrinkable.firstChildLimit_nil]
  | case2 v c cs ih =>
    rw [mapShr_mk, Shrinkable.firstChildLimit_cons]
    have hattach : ((c :: cs).attach.map (fun x => mapShr f x.1)) =
        mapShr f c :: (cs.attach.map (fun x => mapShr f x.1)) := by
      simp [List.attach_cons, Function.comp]
    rw [hattach, Shrinkable.firstChildLimit_cons, ih]

theorem strTreeStr_value (cs : List Char) : (strTreeStr cs).value = String.mk cs := by
  rw [strTreeStr]
  by_cases h : cs = [] <;> simp [h, Shrinkable.value]

theorem genChars_range {span : Nat} (hpos : 0 < span) (hb : span ≤ 55264) :
    ∀ (k : Nat) (g : RandomGenerator), ∀ c ∈ (genChars span k g).1, 32 ≤ c.toNat := by
  intro k
  induction k with
  | zero =>
    intro g c hc
    rw [genChars] at hc
    exact absurd hc (List.not_mem_nil c)
  | succ k ihk =>
    intro g c hc
    rw [genChars] at hc
    rcases hdn : drawNat g span with ⟨m, g1⟩
    rw [hdn] at hc
    dsimp only at hc
    rcases hgc : genChars span k g1 with ⟨cs, g2⟩
    rw [hgc] at hc
    dsimp only at hc
    have hm : m < span := by
      have := drawNat_lt g hpos
      rw [hdn] at this
      exact this
    rcases List.mem_cons.mp hc with rfl | hc'
    · rw [toNat_char_ofNat (by omega)]
      omega
    · have := ihk g1 c
      rw [hgc] at this
      exact this hc'

/-- A value-level predicate propagates through the whole `boolTree`. -/
theorem valAll_boolTree (Q : JsValue → Prop) (hQ : ∀ b, Q (.vBool b)) (b : Bool) :
    ValAll Q (boolTree b) := by
  cases b with
  | false =>
    refine TreeAll.node (hQ false) ?_
    intro c hc
    simp [boolTree, Shrinkable.shrink] at hc
  | true =>
    refine TreeAll.node (hQ true) ?_
    intro c hc
    simp only [boolTree, Shrinkable.shrink_mk, List.mem_singleton] at hc
    subst hc
    refine TreeAll.node (hQ false) ?_
    intro c hc
    simp [Shrinkable.shrink] at hc

/-- A value-level predicate propagates through the whole `intTree`. -/
theorem valAll_intTree (Q : JsValue → Prop) (hQ : ∀ n : Int, Q (.vNum (.int n))) :
    ∀ n, ValAll Q (intTree n) := by
  intro n
  induction n using intTree.induct with
  | case1 =>
    rw [intTree]
    simp only [dite_true]
    refine TreeAll.node (hQ 0) ?_
    intro c hc
    simp [Shrinkable.shrink] at hc
  | case2 n h ih =>
    rw [intTree]
    simp only [h, dite_false]
    refine TreeAll.node (hQ n) ?_
    intro c hc
    simp only [Shrinkable.shrink_mk, List.mem_singleton] at hc
    subst hc
    exact ih

/-- A value-level predicate closed under taking sublists of the character
list propagates through the whole `strTreeChars`. -/
theorem valAll_strTreeChars (Q : JsValue → Prop) :
    ∀ cs : List Char, (∀ cs' : List Char, (∀ c ∈ cs', c ∈ cs) → Q (.vStr (String.mk cs'))) →
      ValAll Q (strTreeChars cs) := by
  intro cs
  induction cs using strTreeChars.induct with
  | case1 =>
    intro hQ
    rw [strTreeChars]
    simp only [dite_true]
    refine TreeAll.node (hQ [] (by simp)) ?_
    intro c hc
    simp [Shrinkable.shrink] at hc
  | case2 cs h ih =>
    intro hQ
    rw [strTreeChars]
    simp only [h, dite_false]
    refine TreeAll.node (hQ cs (fun c hc => hc)) ?_
    intro c hc
    simp only [Shrinkable.shrink_mk, List.mem_singleton] at hc
    subst hc
    exact ih (fun cs' hsub => hQ cs' (fun c hc => List.take_subset _ _ (hsub c hc)))

/-- Generic value-level preservation through `arrayShrinkable`. -/
theorem valAll_arrayShrinkable (Q : JsValue → Prop)
    (harr : ∀ xs : List JsValue, (∀ x ∈ xs, Q x) → Q (.vArr xs))
    {es : List (Shrinkable JsValue)} (h : ∀ e ∈ es, ValAll Q e) :
    ValAll Q (arrayShrinkable es) := by
  refine treeAll_arrayShrinkable _ ?_ es h
  intro es' h'
  show Q (arrayShrinkable es').value
  rw [arrayShrinkable_value]
  refine harr _ ?_
  intro x hx
  obtain ⟨e, he, rfl⟩ := List.mem_map.mp hx
  exact (h' e he).here

/-- Generic value-level preservation through `objectShrinkable`, with a key
predicate `K` holding of every key. -/
theorem valAll_objectShrinkable (Q : JsValue → Prop) (K : String → Prop)
    (hobj : ∀ kvs : List (String × JsValue), (∀ p ∈ kvs, K p.1 ∧ Q p.2) → Q (.vObj kvs))
    {kvs : List (String × Shrinkable JsValue)}
    (h : ∀ p ∈ kvs, K p.1 ∧ ValAll Q p.2) :
    ValAll Q (objectShrinkable kvs) := by
  refine treeAll_objectShrinkable _ K ?_ kvs h
  intro kvs' h'
  show Q (objectShrinkable kvs').value
  rw [objectShrinkable_value]
  refine hobj _ ?_
  intro p hp
  obtain ⟨q, hq, rfl⟩ := List.mem_map.mp hp
  exact ⟨(h' q hq).1, (h' q hq).2.here⟩

theorem genLeaf_valAll {C : ObjectConstraints} {Q : JsValue → Prop}
    (hvals : ∀ a ∈ C.values, ∀ g, ValAll Q (a.generate g).1)
    (hne : C.values ≠ []) (g : RandomGenerator) :
    ValAll Q (genLeaf C g).1 := by
  unfold genLeaf
  rcases hdn : drawNat g C.values.length with ⟨i, g1⟩
  dsimp only
  have hlt : i < C.values.length := by
    have := drawNat_lt g (List.length_pos.mpr hne)
    rw [hdn] at this
    exact this
  have hmem : C.values.getD i (constant .vNull) ∈ C.values := by
    rw [List.getD_eq_getElem?_getD, List.getElem?_eq_getElem hlt]
    simp only [Option.getD_some]
    exact List.getElem_mem hlt
  exact hvals _ hmem _

/-- Generic preservation of a value predicate `Q` (with key predicate `K`)
over the whole generation, covering the generated value and every shrink
descendant. -/
theorem genValue_valAll {C : ObjectConstraints} {Q : JsValue → Prop} {K : String → Prop}
    (hkey : ∀ g, K (((C.key.generate g)).1).value)
    (hvals : ∀ a ∈ C.values, ∀ g, ValAll Q (a.generate g).1)
    (hne : C.values ≠ [])
    (harr : ∀ xs : List JsValue, (∀ x ∈ xs, Q x) → Q (.vArr xs))
    (hobj : ∀ kvs : List (String × JsValue), (∀ p ∈ kvs, K p.1 ∧ Q p.2) → Q (.vObj kvs)) :
    ∀ (d : Nat) (g : RandomGenerator), ValAll Q (genValue C d g).1 := by
  intro d
  induction d with
  | zero =>
    intro g
    rw [genValue]
    exact genLeaf_valAll hvals hne g
  | succ d ih =>
    have helems : ∀ (k : Nat) (g : RandomGenerator),
        ∀ e ∈ (genElems C d k g).1, ValAll Q e := by
      intro k
      induction k with
      | zero =>
        intro g e he
        rw [genElems] at he
        exact absurd he (List.not_mem_nil e)
      | succ k ihk =>
        intro g e he
        rw [genElems] at he
        rcases hgv : genValue C d g with ⟨e1, g1⟩
        rw [hgv] at he
        dsimp only at he
        rcases hge : genElems C d k g1 with ⟨es, g2⟩
        rw [hge] at he
        dsimp only at he
        rcases List.mem_cons.mp he with rfl | he'
        · have := ih g
          rw [hgv] at this
          exact this
        · have := ihk g1 e
          rw [hge] at this
          exact this he'
    have hentries : ∀ (k : Nat) (g : RandomGenerator),
        ∀ p ∈ (genEntries C d k g).1, K p.1 ∧ ValAll Q p.2 := by
      intro k
      induction k with
      | zero =>
        intro g p hp
        rw [genEntries] at hp
        exact absurd hp (List.not_mem_nil p)
      | succ k ihk =>
        intro g p hp
        rw [genEntries] at hp
        rcases hkg : C.key.generate g with ⟨kshr, g1⟩
        rw [hkg] at hp
        dsimp only at hp
        rcases hgv : genValue C d g1 with ⟨v1, g2⟩
        rw [hgv] at hp
        dsimp only at hp
        rcases hge : genEntries C d k g2 with ⟨kvs1, g3⟩
        rw [hge] at hp
        dsimp only at hp
        rcases List.mem_cons.mp hp with rfl | hp'
        · constructor
          · have := hkey g
            rw [hkg] at this
            exact this
          · have := ih g1
            rw [hgv] at this
            exact this
        · have := ihk g2 p
          rw [hge] at this
          exact this hp'
    intro g
    rw [genValue]
    rcases hdn : drawNat g 3 with ⟨choice, g1⟩
    rcases choice with _ | _ | choice
    · exact genLeaf_valAll hvals hne g1
    · dsimp only
      refine valAll_arrayShrinkable Q harr ?_
      intro e he
      exact helems _ _ e he
    · dsimp only
      refine valAll_objectShrinkable Q K hobj ?_
      intro p hp
      exact hentries _ _ p hp

theorem valAll_isJson_booleanArb (g : RandomGenerator) :
    ValAll IsJsonValue ((booleanArb.generate g)).1 := by
  unfold booleanArb
  rcases hdn : drawNat g 2 with ⟨b, g1⟩
  dsimp only
  exact valAll_boolTree _ (fun b => by rw [IsJsonValue]; trivial) _

theorem valAll_isJson_integerArb (g : RandomGenerator) :
    ValAll IsJsonValue ((integerArb.generate g)).1 := by
  unfold integerArb
  rcases hdn : g.next with ⟨n, g1⟩
  dsimp only
  exact valAll_intTree _ (fun n => by rw [IsJsonValue]; trivial) _

theorem valAll_isJson_stringValueArb {span : Nat} (hpos : 0 < span) (hb : span ≤ 55264)
    (g : RandomGenerator) : ValAll IsJsonValue (((stringValueArb span).generate g)).1 := by
  unfold stringValueArb
  dsimp only
  refine valAll_strTreeChars IsJsonValue _ ?_
  intro cs' hsub
  rw [IsJsonValue]
  intro c hc
  exact genChars_range hpos hb _ _ c (hsub c hc)

theorem valAll_isJson_jsonValues {span : Nat} (hpos : 0 < span) (hb : span ≤ 55264) :
    ∀ a ∈ (jsonConstraints span).values, ∀ g, ValAll IsJsonValue (a.generate g).1 := by
  intro a ha g
  simp only [jsonConstraints, List.mem_cons, List.not_mem_nil, or_false] at ha
  rcases ha with rfl | rfl | rfl | rfl
  · exact valAll_isJson_booleanArb g
  · exact valAll_isJson_integerArb g
  · exact valAll_isJson_stringValueArb hpos hb g
  · rw [constant_generate]
    refine TreeAll.node ?_ ?_
    · show IsJsonValue (Shrinkable.value (.mk .vNull []))
      rw [Shrinkable.value_mk, IsJsonValue]
      trivial
    · intro c hc
      rw [Shrinkable.shrink_mk] at hc
      exact absurd hc (List.not_mem_nil c)

theorem keyStringArb_strOk {span : Nat} (hpos : 0 < span) (hb : span ≤ 55264)
    (g : RandomGenerator) : StrOk ((((keyStringArb span).generate g)).1).value := by
  unfold keyStringArb
  dsimp only
  rw [strTreeStr_value]
  intro c hc
  exact genChars_range hpos hb _ _ c hc

/-- Every node value of every shrink tree generated under the json
constraints is a JSON-representable value. -/
theorem json_tree_isJson {span : Nat} (hpos : 0 < span) (hb : span ≤ 55264)
    (d : Nat) (g : RandomGenerator) :
    ValAll IsJsonValue (genValue (jsonConstraints span) d g).1 := by
  refine genValue_valAll (keyStringArb_strOk hpos hb) (valAll_isJson_jsonValues hpos hb)
    (by simp [jsonConstraints]) ?_ ?_ d g
  · intro xs h
    rw [IsJsonValue]
    exact h
  · intro kvs h
    rw [IsJsonValue]
    exact h

theorem goodLimit_jsonValues (span : Nat) :
    ∀ a ∈ (jsonConstraints span).values, ∀ g, GoodLimit ((a.generate g)).1 := by
  intro a ha g
  simp only [jsonConstraints, List.mem_cons, List.not_mem_nil, or_false] at ha
  rcases ha with rfl | rfl | rfl | rfl
  · exact goodLimit_boolTree _
  · exact goodLimit_intTree _
  · exact goodLimit_strTreeChars _
  · exact goodLimit_constant_self (by simp [assertShrinkedValueP])

/-- The canonical minimal JSON shapes of claim C5. -/
def IsMinimalJson (v : JsValue) : Prop :=
  v = .vBool false ∨ v = .vNum (.int 0) ∨ v = .vStr (String.mk []) ∨ v = .vNull ∨
    v = .vArr [] ∨ v = .vObj []

theorem minimal_jsonValues (span : Nat) :
    ∀ a ∈ (jsonConstraints span).values, ∀ g,
      IsMinimalJson (((a.generate g)).1).firstChildLimit := by
  intro a ha g
  simp only [jsonConstraints, List.mem_cons, List.not_mem_nil, or_false] at ha
  rcases ha with rfl | rfl | rfl | rfl
  · unfold booleanArb
    rcases hdn : drawNat g 2 with ⟨b, g1⟩
    dsimp only
    rw [firstChildLimit_boolTree]
    exact Or.inl rfl
  · unfold integerArb
    rcases hdn : g.next with ⟨n, g1⟩
    dsimp only
    rw [firstChildLimit_intTree]
    exact Or.inr (Or.inl rfl)
  · unfold stringValueArb
    dsimp only
    rw [firstChildLimit_strTreeChars]
    exact Or.inr (Or.inr (Or.inl rfl))
  · rw [constant_generate]
    dsimp only
    rw [Shrinkable.firstChildLimit_nil]
    exact Or.inr (Or.inr (Or.inr (Or.inl rfl)))

theorem genLeaf_minimal {C : ObjectConstraints}
    (hvals : ∀ a ∈ C.values, ∀ g, IsMinimalJson (((a.generate g)).1).firstChildLimit)
    (g : RandomGenerator) : IsMinimalJson ((genLeaf C g).1).firstChildLimit := by
  unfold genLeaf
  rcases hdn : drawNat g C.values.length with ⟨i, g1⟩
  dsimp only
  by_cases h : i < C.values.length
  · have hmem : C.values.getD i (constant .vNull) ∈ C.values := by
      rw [List.getD_eq_getElem?_getD, List.getElem?_eq_getElem h]
      simp only [Option.getD_some]
      exact List.getElem_mem h
    exact hvals _ hmem _
  · rw [List.getD_eq_default _ _ (Nat.le_of_not_lt h), constant_generate]
    dsimp only
    rw [Shrinkable.firstChildLimit_nil]
    exact Or.inr (Or.inr (Or.inr (Or.inl rfl)))

/-- Every generation under the json constraints fully shrinks to one of
the six canonical minimal JSON values. -/
theorem genValue_minimal {C : ObjectConstraints}
    (hvals : ∀ a ∈ C.values, ∀ g, IsMinimalJson (((a.generate g)).1).firstChildLimit) :
    ∀ (d : Nat) (g : RandomGenerator),
      IsMinimalJson ((genValue C d g).1).firstChildLimit := by
  intro d g
  cases d with
  | zero =>
    rw [genValue]
    exact genLeaf_minimal hvals g
  | succ d =>
    rw [genValue]
    rcases hdn : drawNat g 3 with ⟨choice, g1⟩
    rcases choice with _ | _ | choice
    · exact genLeaf_minimal hvals g1
    · have h := firstChildLimit_arrayShrinkable ((genElems C d
        (drawNat g1 (maxArrayLength + 1)).1 (drawNat g1 (maxArrayLength + 1)).2).1)
      exact Or.inr (Or.inr (Or.inr (Or.inr (Or.inl h))))
    · have h := firstChildLimit_objectShrinkable ((genEntries C d
        (drawNat g1 (maxObjectKeys + 1)).1 (drawNat g1 (maxObjectKeys + 1)).2).1)
      exact Or.inr (Or.inr (Or.inr (Or.inr (Or.inr h))))

theorem json_generate_fst (g : RandomGenerator) :
    ((json.generate g)).1 =
      mapShr stringifyJs ((genValue (jsonConstraints asciiSpan)
        (jsonConstraints asciiSpan).maxDepth g)).1 := rfl

theorem unicodeJson_generate_fst (g : RandomGenerator) :
    ((unicodeJson.generate g)).1 =
      mapShr stringifyJs ((genValue (jsonConstraints unicodeSpan)
        (jsonConstraints unicodeSpan).maxDepth g)).1 := rfl

/-- The serialized generation under json constraints: the generated text
parses, the fully-shrunk text parses, the decoded pair satisfies
`assertShrinkedValue`, and the decoded shrunk value is canonical minimal. -/
theorem jsonCore_good {span : Nat} (hpos : 0 < span) (hb : span ≤ 55264)
    (d : Nat) (g : RandomGenerator) :
    ∃ v0 vm fuel0 fuelm,
      parseValue fuel0
        ((mapShr stringifyJs ((genValue (jsonConstraints span) d g)).1).value).data
        = some (v0, []) ∧
      parseValue fuelm
        ((mapShr stringifyJs ((genValue (jsonConstraints span) d g)).1).firstChildLimit).data
        = some (vm, []) ∧
      assertShrinkedValueP v0 vm ∧ IsMinimalJson vm := by
  have htree := json_tree_isJson hpos hb d g
  have hv0 : IsJsonValue ((genValue (jsonConstraints span) d g)).1.value := htree.self
  have hvm : IsJsonValue ((genValue (jsonConstraints span) d g)).1.firstChildLimit :=
    htree.firstChildLimit
  have hgood := genValue_goodLimit (jsonConstraints span) (goodLimit_jsonValues span) d g
  have hmin := genValue_minimal (minimal_jsonValues span) d g
  refine ⟨((genValue (jsonConstraints span) d g)).1.value,
    ((genValue (jsonConstraints span) d g)).1.firstChildLimit,
    pfuelV ((genValue (jsonConstraints span) d g)).1.value,
    pfuelV ((genValue (jsonConstraints span) d g)).1.firstChildLimit, ?_, ?_, hgood, hmin⟩
  · rw [mapShr_value]
    have h := parse_serValue _ hv0 _ (Nat.le_refl _) [] trivial
    rw [List.append_nil] at h
    exact h
  · rw [firstChildLimit_mapShr]
    have h := parse_serValue _ hvm _ (Nat.le_refl _) [] trivial
    rw [List.append_nil] at h
    exact h

/-- C4: every value generated by `json()` or `unicodeJson()` is a string
(its type is `String`), and that string always parses successfully as
standard JSON — the modelled `JSON.parse` returns a value and consumes the
whole text — for every generator state, with default constraints. -/
theorem json_unicodeJson_generate_parsable_strings (g : RandomGenerator) :
    (∃ fuel v, parseValue fuel ((((json.generate g)).1).value).data = some (v, [])) ∧
    (∃ fuel v, parseValue fuel ((((unicodeJson.generate g)).1).value).data = some (v, [])) := by
  constructor
  · obtain ⟨v0, vm, fuel0, fuelm, h0, hm, hgood, hmin⟩ :=
      @jsonCore_good asciiSpan (by decide) (by decide) (jsonConstraints asciiSpan).maxDepth g
    exact ⟨fuel0, v0, by rw [json_generate_fst g]; exact h0⟩
  · obtain ⟨v0, vm, fuel0, fuelm, h0, hm, hgood, hmin⟩ :=
      @jsonCore_good unicodeSpan (by decide) (by decide) (jsonConstraints unicodeSpan).maxDepth g
    exact ⟨fuel0, v0, by rw [unicodeJson_generate_fst g]; exact h0⟩

/-- C5: for every Shrinkable generated by `json()` or `unicodeJson()`, the
text reached by exhaustively following the first-child shrink path (the
source loop `shrinkLoop`) is still a string (its type is `String`), still
parses as JSON, and decodes to the canonical minimal value of the
originally decoded value's top-level shape — one of `false`, `0`, `""`,
`null`, `[]`, `{}` — in the sense of the source's `assertShrinkedValue`. -/
theorem json_unicodeJson_shrink_to_minimal (g : RandomGenerator) :
    (∃ v0 vm fuel0 fuelm,
      parseValue fuel0 ((((json.generate g)).1).value).data = some (v0, []) ∧
      parseValue fuelm (((shrinkLoop ((json.generate g)).1)).value).data = some (vm, []) ∧
      assertShrinkedValueP v0 vm ∧ IsMinimalJson vm) ∧
    (∃ v0 vm fuel0 fuelm,
      parseValue fuel0 ((((unicodeJson.generate g)).1).value).data = some (v0, []) ∧
      parseValue fuelm (((shrinkLoop ((unicodeJson.generate g)).1)).value).data = some (vm, []) ∧
      assertShrinkedValueP v0 vm ∧ IsMinimalJson vm) := by
  constructor
  · obtain ⟨v0, vm, fuel0, fuelm, h0, hm, hgood, hmin⟩ :=
      @jsonCore_good asciiSpan (by decide) (by decide) (jsonConstraints asciiSpan).maxDepth g
    refine ⟨v0, vm, fuel0, fuelm, ?_, ?_, hgood, hmin⟩
    · rw [json_generate_fst g]
      exact h0
    · rw [shrinkLoop_value, json_generate_fst g]
      exact hm
  · obtain ⟨v0, vm, fuel0, fuelm, h0, hm, hgood, hmin⟩ :=
      @jsonCore_good unicodeSpan (by decide) (by decide) (jsonConstraints unicodeSpan).maxDepth g
    refine ⟨v0, vm, fuel0, fuelm, ?_, ?_, hgood, hmin⟩
    · rw [unicodeJson_generate_fst g]
      exact h0
    · rw [shrinkLoop_value, unicodeJson_generate_fst g]
      exact hm

end FastCheck
